import Mathlib

/-!
# CMAC engine of liblogicalaccess (`plugins/cryptolib/src/cmac.cpp`)

A shallow embedding of `CMACCrypto::shift_string` and of the two
`CMACCrypto::cmac` entry points, and the properties checked against it.

## Conventions of the embedding

* `unsigned char` is `Fin 256`; the byte operators `<<`, `|`, `&`, `^` are the
  ones of `Fin 256`, which reduce modulo 256 exactly as the assignment of an
  `int` expression to an `unsigned char` does.
* `ByteVector` (`std::vector<unsigned char>`) is `List Byte`.  `v[i]` is only
  defined for `i < v.size()`; an access outside that range is undefined
  behaviour in C++ and is reported here as `Fault.outOfBounds`.
* `size_t` is 64 bits wide, `int` and `unsigned int` are 32 bits wide (LP64).
  A `size_t` expression is evaluated over the integers and wrapped by
  `toSizeT`; a value stored into an `int` goes through `toInt32`; an `int`
  passed as an `unsigned int` goes through `toUInt32`.
* A loop counter declared `unsigned int` walks over the indices of a vector.
  The embedding covers vectors of fewer than `2 ^ 32` elements, for which such
  a counter never wraps, and runs these loops with a natural-number counter
  (`forLoop`).  The `unsigned char` counter of the IV copy loop is modelled
  with its wrap at 256 (`ivCopyLoop`).
* The block ciphers (`DESCipher`, `AESCipher`), the key and the IV classes are
  not part of the file; the cipher transform is a parameter (`CipherImpl`).
-/

namespace CMACCrypto

/-! ## Data model -/

/-- An `unsigned char`. -/
abbrev Byte := Fin 256

/-- A `std::vector<unsigned char>`. -/
abbrev ByteVector := List Byte

/-- What an exception thrown by a cipher delegate carries; the engine never
looks inside. -/
structure CipherError where
  code : Nat
  deriving DecidableEq, Repr

/-- The ways a call can end without returning a value. -/
inductive Fault where
  /-- The `LibLogicalAccessException` thrown at line 39, with its message. -/
  | wrongCryptoMechanism (msg : String)
  /-- A vector element outside `[0, size)` is read or written. -/
  | outOfBounds
  /-- An integer `%` whose right operand is zero. -/
  | divisionByZero
  /-- A loop whose exit test can never become false. -/
  | nonTermination
  /-- An exception raised by the cipher delegate, passed through unchanged. -/
  | cipherFailure (e : CipherError)
  deriving DecidableEq, Repr

/-- The two concrete cipher classes the file names. -/
inductive CipherFamily where
  | DES
  | AES
  deriving DecidableEq, Repr

/-- The encryption modes the file uses. -/
inductive EncMode where
  | ENC_MODE_CBC
  | ENC_MODE_ECB
  deriving DecidableEq, Repr

/-- A cipher delegate object: its dynamic class and the mode it was built
with (`new DESCipher(mode)`, `new AESCipher(mode)`). -/
structure OpenSSLSymmetricCipher where
  family : CipherFamily
  mode : EncMode
  deriving DecidableEq, Repr

/-- A key object: `DESSymmetricKey::createFromData` or
`AESSymmetricKey::createFromData` applied to the raw key bytes. -/
structure SymmetricKey where
  family : CipherFamily
  data : ByteVector
  deriving DecidableEq, Repr

/-- An IV object: `createNull()` or `createFromData(bytes)` of the DES or AES
initialization-vector class. -/
inductive InitializationVector where
  | createNull (family : CipherFamily)
  | createFromData (family : CipherFamily) (data : ByteVector)
  deriving DecidableEq, Repr

/-- The transform `cipher->cipher(src, dest, key, iv, false)` of the external
block-cipher classes: from the delegate, the source bytes, the key and the IV
to the destination bytes, or to the exception it raises. -/
abbrev CipherImpl :=
  OpenSSLSymmetricCipher → ByteVector → SymmetricKey → InitializationVector →
    Except CipherError ByteVector

deriving instance DecidableEq for Except

/-! ## Machine integers -/

/-- The value of a `size_t` expression whose mathematical value is `z`: a
negative value wraps around `2 ^ 64` (operands are sizes below `2 ^ 64`, so one
wrap is all that can happen). -/
def toSizeT (z : Int) : Nat :=
  if z < 0 then (z + 2 ^ 64).toNat else z.toNat

/-- The `int` obtained from an unsigned value: reduction modulo `2 ^ 32` into
`[-2 ^ 31, 2 ^ 31)`. -/
def toInt32 (v : Nat) : Int :=
  if v % 2 ^ 32 < 2 ^ 31 then ((v % 2 ^ 32 : Nat) : Int) else ((v % 2 ^ 32 : Nat) : Int) - 2 ^ 32

/-- The `unsigned int` obtained from an `int`: reduction modulo `2 ^ 32`. -/
def toUInt32 (z : Int) : Nat :=
  (z % 2 ^ 32).toNat

/-! ## Vector accesses and loops -/

/-- The read `v[i]`. -/
def rd (v : ByteVector) (i : Nat) : Except Fault Byte :=
  match v[i]? with
  | some b => .ok b
  | none => .error .outOfBounds

/-- The write `v[i] = b`. -/
def wr (v : ByteVector) (i : Nat) (b : Byte) : Except Fault ByteVector :=
  if i < v.length then .ok (v.set i b) else .error .outOfBounds

/-- The loop `for (i = start; i < start + n; ++i) body`: `n` iterations with a
counter that does not wrap, stopping at the first fault. -/
def forLoop {σ : Type} (body : Nat → σ → Except Fault σ) : Nat → Nat → σ → Except Fault σ
  | 0, _, s => .ok s
  | n + 1, i, s =>
    match body i s with
    | .ok s1 => forLoop body n (i + 1) s1
    | .error e => .error e

/-! ## `CMACCrypto::shift_string` (lines 186-205) -/

/-- The body of the loop of `shift_string` (lines 192-194). -/
def shift_body (i : Nat) (ret : ByteVector) : Except Fault ByteVector := do
  let a ← rd ret i
  let ret ← wr ret i (a <<< 1)
  let next ← rd ret (i + 1)
  let a ← rd ret i
  wr ret i (a ||| (if next &&& 0x80 ≠ 0 then 0x01 else 0x00))

/-- The function `CMACCrypto::shift_string(buf, xorparam)`; `xorparam`
defaults to `0x00`.  The loop bound `ret.size() - 1` is a `size_t`. -/
def shift_string (buf : ByteVector) (xorparam : Byte := 0x00) : Except Fault ByteVector := do
  let ret := buf
  let ret ← forLoop shift_body (toSizeT ((ret.length : Int) - 1)) 0 ret
  let last := toSizeT ((ret.length : Int) - 1)
  let a ← rd ret last
  let ret ← wr ret last (a <<< 1)
  if xorparam ≠ 0x00 then do
    let a ← rd ret last
    wr ret last (a ^^^ xorparam)
  else
    pure ret

/-! ## The low-level `CMACCrypto::cmac` (lines 68-184) -/

/-- A call `cipher->cipher(src, dest, key, iv, false)`: the destination bytes,
or the delegate's exception passed through. -/
def run_cipher (impl : CipherImpl) (cipher : OpenSSLSymmetricCipher) (src : ByteVector)
    (key : SymmetricKey) (iv : InitializationVector) : Except Fault ByteVector :=
  match impl cipher src key iv with
  | .ok dest => .ok dest
  | .error e => .error (.cipherFailure e)

/-- Lines 78-92: the ECB delegate built for the subkeys, chosen by the dynamic
class of `cipherMAC`. -/
def cipherK1K2 (cipherMAC : OpenSSLSymmetricCipher) : OpenSSLSymmetricCipher :=
  match cipherMAC.family with
  | .DES => { family := .DES, mode := .ENC_MODE_ECB }
  | .AES => { family := .AES, mode := .ENC_MODE_ECB }

/-- Lines 78-92: the key object, a DES key for a DES delegate and an AES key
otherwise. -/
def symkey (cipherMAC : OpenSSLSymmetricCipher) (key : ByteVector) : SymmetricKey :=
  match cipherMAC.family with
  | .DES => { family := .DES, data := key }
  | .AES => { family := .AES, data := key }

/-- Lines 94-105: the feedback constant, chosen by `block_size`. -/
def Rb (block_size : Nat) : Byte :=
  if block_size = 8 then 0x1b else 0x87

/-- Lines 112-120, and again lines 122-130: one doubling step, from `L` to
`K1` and from `K1` to `K2`. -/
def next_subkey (L : ByteVector) (Rb : Byte) : Except Fault ByteVector := do
  let first ← rd L 0
  if first &&& 0x80 = 0x00 then shift_string L else shift_string L Rb

/-- Lines 107-130: `L` is the ECB encryption of `block_size` zero bytes under a
null IV; the result is the pair `(K1, K2)`. -/
def subkeys (impl : CipherImpl) (key : ByteVector) (cipherMAC : OpenSSLSymmetricCipher)
    (block_size : Nat) : Except Fault (ByteVector × ByteVector) := do
  let blankbuf : ByteVector := List.replicate block_size 0x00
  let L ← run_cipher impl (cipherK1K2 cipherMAC) blankbuf (symkey cipherMAC key)
    (.createNull cipherMAC.family)
  let K1 ← next_subkey L (Rb block_size)
  let K2 ← next_subkey K1 (Rb block_size)
  pure (K1, K2)

/-- Lines 132-134: the `int pad`.  The right-hand side is a `size_t`
expression (it cannot wrap: the remainder is below `padding_size`), stored into
an `int`; for an empty message the `unsigned int padding_size` is stored into
the `int`. -/
def pad_length (padding_size : Nat) (data_size : Nat) : Except Fault Int :=
  if padding_size = 0 then .error .divisionByZero
  else
    let pad := toInt32 ((padding_size - data_size % padding_size) % padding_size)
    if data_size = 0 then .ok (toInt32 padding_size) else .ok pad

/-- Lines 142-145: `n` times `padded_data.push_back(0x00)`. -/
def push_zeros : Nat → ByteVector → ByteVector
  | 0, padded_data => padded_data
  | n + 1, padded_data => push_zeros n (padded_data ++ [0x00])

/-- Lines 136-147: the padded copy of the message. -/
def pad_data (data : ByteVector) (pad : Int) : ByteVector :=
  let padded_data := data
  if pad > 0 then
    let padded_data := padded_data ++ [0x80]
    if pad > 1 then push_zeros (pad - 1).toNat padded_data else padded_data
  else padded_data

/-- Lines 154-155 (and 163-164): one step of the subkey XOR.  The index
`padded_data.size() - K.size() + i` is a `size_t`. -/
def xor_body (K : ByteVector) (i : Nat) (padded_data : ByteVector) : Except Fault ByteVector := do
  let idx := toSizeT ((padded_data.length : Int) - (K.length : Int) + (i : Int))
  let a ← rd padded_data idx
  let k ← rd K i
  wr padded_data idx (a ^^^ k)

/-- Lines 152-156 (and 161-165): the loop `for (i = 0; i < K.size(); ++i)`. -/
def xor_subkey (padded_data K : ByteVector) : Except Fault ByteVector :=
  forLoop (xor_body K) K.length 0 padded_data

/-- Lines 149-166: the choice between `K1` and `K2`. -/
def mask_last_block (padded_data K1 K2 : ByteVector) (pad : Int) (forceK2Use : Bool) :
    Except Fault ByteVector :=
  if pad = 0 ∧ forceK2Use = false then xor_subkey padded_data K1
  else xor_subkey padded_data K2

/-- The low-level entry point
`CMACCrypto::cmac(key, cipherMAC, block_size, data, lastIV, padding_size, forceK2Use)`;
`padding_size` is an `unsigned int`, `forceK2Use` defaults to `false`. -/
def cmac_low (impl : CipherImpl) (key : ByteVector) (cipherMAC : OpenSSLSymmetricCipher)
    (block_size : Nat) (data lastIV : ByteVector) (padding_size : Nat)
    (forceK2Use : Bool := false) : Except Fault ByteVector := do
  let (K1, K2) ← subkeys impl key cipherMAC block_size
  let pad ← pad_length padding_size data.length
  let padded_data := pad_data data pad
  let padded_data ← mask_last_block padded_data K1 K2 pad forceK2Use
  run_cipher impl cipherMAC padded_data (symkey cipherMAC key)
    (.createFromData cipherMAC.family lastIV)

/-! ## The high-level `CMACCrypto::cmac` (lines 19-66) -/

/-- Lines 25-41: the CBC delegate and the block size for an algorithm name, or
the exception. -/
def select_cipher (crypto : String) : Except Fault (OpenSSLSymmetricCipher × Nat) :=
  if crypto = "des" ∨ crypto = "3des" then
    .ok ({ family := .DES, mode := .ENC_MODE_CBC }, 8)
  else if crypto = "aes" then
    .ok ({ family := .AES, mode := .ENC_MODE_CBC }, 16)
  else
    .error (.wrongCryptoMechanism ("Wrong crypto mechanism: " ++ crypto))

/-- Lines 52-55: `for (unsigned char i = 0; i < iv.size(); ++i) lastiv[i] = iv[i];`.
The counter takes 256 values and the exit test reads nothing else that
changes, so a run that has not left the loop after 256 iterations never
leaves it: with 257 units of fuel, running out of fuel is non-termination. -/
def ivCopyLoop (iv : ByteVector) : Nat → Nat → ByteVector → Except Fault ByteVector
  | 0, _, _ => .error .nonTermination
  | fuel + 1, i, lastiv =>
    if i < iv.length then
      match rd iv i with
      | .error e => .error e
      | .ok b =>
        match wr lastiv i b with
        | .error e => .error e
        | .ok lastiv1 => ivCopyLoop iv fuel ((i + 1) % 256) lastiv1
    else .ok lastiv

/-- Lines 45-56: the IV block handed to the low-level entry point. -/
def build_lastiv (block_size : Nat) (iv : ByteVector) : Except Fault ByteVector :=
  let lastiv : ByteVector := List.replicate block_size 0x00
  if iv.length > 0 then ivCopyLoop iv 257 0 lastiv else .ok lastiv

/-- Lines 46-49: a zero `padding_size` becomes `block_size`. -/
def default_padding (padding_size : Int) (block_size : Nat) : Int :=
  if padding_size = 0 then (block_size : Int) else padding_size

/-- Lines 59-62: only the last `block_size` bytes of a longer result are kept. -/
def truncate_tag (cmac : ByteVector) (block_size : Nat) : ByteVector :=
  if cmac.length > block_size then cmac.drop (cmac.length - block_size) else cmac

/-- The high-level entry point
`CMACCrypto::cmac(key, crypto, data, iv, padding_size)`; `padding_size` is an
`int`, converted to `unsigned int` by the call of the low-level entry point. -/
def cmac (impl : CipherImpl) (key : ByteVector) (crypto : String) (data : ByteVector)
    (iv : ByteVector := []) (padding_size : Int := 0) : Except Fault ByteVector := do
  let (cipherMAC, block_size) ← select_cipher crypto
  let lastiv ← build_lastiv block_size iv
  let padding_size := default_padding padding_size block_size
  let cmac ← cmac_low impl key cipherMAC block_size data lastiv (toUInt32 padding_size)
  pure (truncate_tag cmac block_size)

/-! ## Descriptions used to state the properties -/

/-- The carry bit the loop of `shift_string` takes from the next byte. -/
def carry (next : Byte) : Byte :=
  if next &&& 0x80 ≠ 0 then 0x01 else 0x00

/-- What the loop of `shift_string` leaves: every byte but the last shifted,
with the carry of its right neighbour. -/
def shift_loop_result : Byte → ByteVector → ByteVector
  | a, [] => [a]
  | a, b :: rest => ((a <<< 1) ||| carry b) :: shift_loop_result b rest

/-- The result of `shift_string` on the buffer `a :: rest`. -/
def shifted (x : Byte) : Byte → ByteVector → ByteVector
  | a, [] => [(a <<< 1) ^^^ x]
  | a, b :: rest => ((a <<< 1) ||| carry b) :: shifted x b rest

/-- A buffer read as a big-endian unsigned integer. -/
def beValue : ByteVector → Nat
  | [] => 0
  | a :: rest => a.val * 256 ^ rest.length + beValue rest

/-- The buffer `padded` with its last `K.length` bytes XORed with `K`. -/
def xor_last (padded K : ByteVector) : ByteVector :=
  padded.take (padded.length - K.length)
    ++ List.zipWith (· ^^^ ·) (padded.drop (padded.length - K.length)) K

/-- The value of one doubling step on a buffer: `shifted` with the xor
constant chosen by the top bit of the first byte. -/
def subkey_of (L : ByteVector) (rb : Byte) : ByteVector :=
  match L with
  | [] => []
  | a :: rest => shifted (if a &&& 0x80 = 0x00 then 0x00 else rb) a rest

/-- A stand-in cipher delegate for concrete evaluations: every byte of the
source is XORed with the first key byte (with `0x00` under an empty key),
whatever the mode and the IV. -/
def xor_key_cipher : CipherImpl :=
  fun _ src key _ => .ok (src.map (· ^^^ key.data.headD 0x00))

/-- The call ends with the exception of line 39. -/
def raises_wrong_crypto {α : Type} (r : Except Fault α) : Prop :=
  ∃ msg, r = .error (.wrongCryptoMechanism msg)

/-- The block size of a supported algorithm name: 16 for `"aes"`, 8 for
`"des"` and `"3des"`. -/
def block_size_of (crypto : String) : Nat :=
  if crypto = "aes" then 16 else 8

/-! ## A block cipher as a per-key block function -/

/-- Modelled from the spec: the block size of the cipher classes `DESCipher`
and `AESCipher`, which are not among the source files: 8 bytes for DES and
triple-DES, 16 bytes for AES. -/
def family_block_size : CipherFamily → Nat
  | .DES => 8
  | .AES => 16

/-- The XOR of two byte strings, position by position. -/
def xor_bytes (a b : ByteVector) : ByteVector :=
  List.zipWith (· ^^^ ·) a b

/-- The split of a buffer into blocks of `bs` bytes, the last one possibly
shorter; the first argument bounds the number of blocks. -/
def blocksAux (bs : Nat) : Nat → ByteVector → List ByteVector
  | 0, _ => []
  | fuel + 1, v => if v = [] then [] else v.take bs :: blocksAux bs fuel (v.drop bs)

/-- The split of a buffer into blocks of `bs` bytes. -/
def blocks (bs : Nat) (v : ByteVector) : List ByteVector :=
  blocksAux bs v.length v

/-- The CBC chain `c_i = E (m_i xor c_(i-1))`, started from `prev`. -/
def cbc_chain (E : ByteVector → ByteVector) : ByteVector → List ByteVector → List ByteVector
  | _, [] => []
  | prev, m :: ms => E (xor_bytes m prev) :: cbc_chain E (E (xor_bytes m prev)) ms

/-- Modelled from the spec: the bytes an object of the IV classes, which are
not among the source files, stands for; a null IV is a block of zero bytes. -/
def iv_bytes : InitializationVector → ByteVector
  | .createNull family => List.replicate (family_block_size family) 0x00
  | .createFromData _ data => data

/-- Modelled from the spec: the transform of the cipher classes `DESCipher`
and `AESCipher`, which are not among the source files, for a block function
`E family key`: the ECB transform applies it to every block, the CBC transform
chains it from the IV. -/
def block_cipher (E : CipherFamily → ByteVector → ByteVector → ByteVector) : CipherImpl :=
  fun cipher src key iv =>
    match cipher.mode with
    | .ENC_MODE_ECB =>
      .ok ((blocks (family_block_size cipher.family) src).map (E cipher.family key.data)).flatten
    | .ENC_MODE_CBC =>
      .ok (cbc_chain (E cipher.family key.data) (iv_bytes iv)
        (blocks (family_block_size cipher.family) src)).flatten

/-! ## The CMAC of NIST SP 800-38B -/

/-- A natural number below `256 ^ n` written as `n` bytes, big-endian. -/
def toBE : Nat → Nat → ByteVector
  | 0, _ => []
  | n + 1, v => Fin.ofNat (v / 256 ^ n % 256) :: toBE n (v % 256 ^ n)

/-- Section 5.3: the constant `R_b` as a block, `0x87` in the last byte for a
block of 128 bits and `0x1b` for a block of 64 bits. -/
def nist_Rb (bs : Nat) : ByteVector :=
  List.replicate (bs - 1) 0x00 ++ [if bs = 16 then 0x87 else 0x1b]

/-- Section 6.1, steps 2 and 3: `L << 1` when the most significant bit of `L`
is 0, and `(L << 1) xor R_b` otherwise; `L << 1` is the bit string of
`2 * L mod 2 ^ b`. -/
def nist_double (L : ByteVector) : ByteVector :=
  let shifted_L := toBE L.length ((2 * beValue L) % 2 ^ (8 * L.length))
  if beValue L < 2 ^ (8 * L.length - 1) then shifted_L
  else xor_bytes shifted_L (nist_Rb L.length)

/-- Section 6.2 with `Tlen = b`, for a block function `E` on blocks of `bs`
bytes: the subkeys from `L = E(0^b)`; `n = 1` blocks for the empty message and
`ceil(Mlen / b)` otherwise; the last block `Mn*` XORed with `K1` if it is
complete, and padded with `0x80 00..00` and XORed with `K2` if it is not; the
chain from the zero block; the last chained block is the tag. -/
def nist_cmac (E : ByteVector → ByteVector) (bs : Nat) (data : ByteVector) : ByteVector :=
  let L := E (List.replicate bs 0x00)
  let K1 := nist_double L
  let K2 := nist_double K1
  let n := if data.length = 0 then 1 else (data.length + bs - 1) / bs
  let Mfull := blocks bs (data.take ((n - 1) * bs))
  let Mstar := data.drop ((n - 1) * bs)
  let Mn :=
    if Mstar.length = bs then xor_bytes Mstar K1
    else xor_bytes (Mstar ++ 0x80 :: List.replicate (bs - Mstar.length - 1) 0x00) K2
  (Mfull ++ [Mn]).foldl (fun C M => E (xor_bytes M C)) (List.replicate bs 0x00)

/-- The cipher family of a supported algorithm name. -/
def family_of (crypto : String) : CipherFamily :=
  if crypto = "aes" then .AES else .DES

/-- A stand-in block function for concrete evaluations: the block reversed,
every byte XORed with the first key byte and then with `0x5a`. -/
def toy_block (_family : CipherFamily) (key x : ByteVector) : ByteVector :=
  (x.map (fun b => (b ^^^ key.headD 0x00) ^^^ 0x5a)).reverse

/-- Every index the subkey XOR loop uses on `padded` with the subkey `K`,
`padded.size() - K.size() + i` for `i < K.size()` as a `size_t`, lies inside
`padded`. -/
def xor_indices_in_bounds (padded K : ByteVector) : Prop :=
  ∀ i : Nat, i < K.length →
    toSizeT ((padded.length : Int) - (K.length : Int) + (i : Int)) < padded.length

/-- The subkey choice of lines 149-166: `K1` is used exactly when this holds,
`K2` otherwise. -/
def uses_K1 (pad : Int) (forceK2Use : Bool) : Bool :=
  decide (pad = 0 ∧ forceK2Use = false)

/-- A stand-in cipher delegate that does not look at its source bytes: it
returns as many bytes `0xc0` as it was given. -/
def constant_cipher : CipherImpl :=
  fun _ src _ _ => .ok (List.replicate src.length 0xc0)

/-! # Properties -/

/-! ## Vector accesses -/

theorem rd_append_cons (front : ByteVector) (a : Byte) (rest : ByteVector) :
    rd (front ++ a :: rest) front.length = .ok a := by
  have h : (front ++ a :: rest)[front.length]? = some a := by
    rw [List.getElem?_append_right (le_refl _)]; simp
  simp only [rd, h]

theorem wr_append_cons (front : ByteVector) (a : Byte) (rest : ByteVector) (b : Byte) :
    wr (front ++ a :: rest) front.length b = .ok (front ++ b :: rest) := by
  simp [wr]

theorem rd_append_cons_succ (front : ByteVector) (a b : Byte) (rest : ByteVector) :
    rd (front ++ a :: b :: rest) (front.length + 1) = .ok b := by
  have h := rd_append_cons (front ++ [a]) b rest
  simpa using h

theorem shift_body_append (front : ByteVector) (a b : Byte) (rest : ByteVector) :
    shift_body front.length (front ++ a :: b :: rest)
      = .ok (front ++ ((a <<< 1) ||| carry b) :: b :: rest) := by
  simp only [shift_body, bind, Except.bind, rd_append_cons, wr_append_cons,
    rd_append_cons_succ, carry]

theorem forLoop_shift_body (rest : ByteVector) :
    ∀ (front : ByteVector) (a : Byte),
      forLoop shift_body rest.length front.length (front ++ a :: rest)
        = .ok (front ++ shift_loop_result a rest) := by
  induction rest with
  | nil => intro front a; simp [forLoop, shift_loop_result]
  | cons b rest ih =>
    intro front a
    simp only [List.length_cons, forLoop, shift_body_append, shift_loop_result]
    have h := ih (front ++ [(a <<< 1) ||| carry b]) b
    simpa using h

theorem toSizeT_length_pred (rest : ByteVector) (a : Byte) :
    toSizeT (((a :: rest).length : Int) - 1) = rest.length := by
  unfold toSizeT
  simp only [List.length_cons]
  split <;> omega

set_option maxRecDepth 100000 in
theorem byte_xor_zero : ∀ b : Byte, b ^^^ (0x00 : Byte) = b := by decide

theorem shift_loop_split : ∀ (rest : ByteVector) (a : Byte),
    ∃ (front : ByteVector) (l : Byte),
      shift_loop_result a rest = front ++ [l] ∧ front.length = rest.length ∧
      ∀ x : Byte, shifted x a rest = front ++ [(l <<< 1) ^^^ x] := by
  intro rest
  induction rest with
  | nil => intro a; exact ⟨[], a, by simp [shift_loop_result], rfl, fun x => by simp [shifted]⟩
  | cons b rest ih =>
    intro a
    obtain ⟨front, l, h1, h2, h3⟩ := ih b
    refine ⟨((a <<< 1) ||| carry b) :: front, l, ?_, ?_, ?_⟩
    · simp [shift_loop_result, h1]
    · simp [h2]
    · intro x; simp [shifted, h3]

/-- On a non-empty buffer `shift_string` returns, and returns `shifted`. -/
theorem shift_string_cons (a : Byte) (rest : ByteVector) (x : Byte) :
    shift_string (a :: rest) x = .ok (shifted x a rest) := by
  obtain ⟨front, l, h1, h2, h3⟩ := shift_loop_split rest a
  have hloop := forLoop_shift_body rest [] a
  simp only [List.length_nil, List.nil_append] at hloop
  have hlen : (front ++ [l]).length = (a :: rest).length := by simp [h2]
  have hlast : toSizeT (((front ++ [l]).length : Int) - 1) = front.length := by
    rw [hlen, toSizeT_length_pred, h2]
  unfold shift_string
  simp only [toSizeT_length_pred, hloop, h1, bind, Except.bind, hlast, rd_append_cons,
    wr_append_cons, h3, pure, Except.pure]
  by_cases hx : x = 0x00
  · subst hx; simp [byte_xor_zero]
  · simp [hx]

theorem shifted_length (x : Byte) : ∀ (rest : ByteVector) (a : Byte),
    (shifted x a rest).length = rest.length + 1 := by
  intro rest
  induction rest with
  | nil => intro a; simp [shifted]
  | cons b rest ih => intro a; simp [shifted, ih]

theorem beValue_lt : ∀ v : ByteVector, beValue v < 256 ^ v.length := by
  intro v
  induction v with
  | nil => simp [beValue]
  | cons a rest ih =>
    have ha := a.isLt
    have h1 : a.val * 256 ^ rest.length ≤ 255 * 256 ^ rest.length :=
      Nat.mul_le_mul_right _ (by omega)
    simp only [beValue, List.length_cons, pow_succ]
    omega

set_option maxRecDepth 100000 in
theorem shl_val : ∀ a : Byte, (a <<< 1).val = (2 * a.val) % 256 := by decide

set_option maxRecDepth 100000 in
theorem shl_or_one_val : ∀ a : Byte, ((a <<< 1) ||| (0x01 : Byte)).val = (2 * a.val) % 256 + 1 := by
  decide

set_option maxRecDepth 100000 in
theorem shl_or_zero : ∀ a : Byte, (a <<< 1) ||| (0x00 : Byte) = a <<< 1 := by decide

set_option maxRecDepth 100000 in
theorem carry_val : ∀ b : Byte, (carry b).val = b.val / 128 := by decide

set_option maxRecDepth 100000 in
theorem carry_cases : ∀ b : Byte, carry b = (0x00 : Byte) ∨ carry b = (0x01 : Byte) := by decide

theorem shl_or_carry_val (a b : Byte) :
    ((a <<< 1) ||| carry b).val = (2 * a.val) % 256 + b.val / 128 := by
  have hc := carry_val b
  rcases carry_cases b with h | h
  · rw [h] at hc ⊢
    rw [shl_or_zero, shl_val]
    have : (0x00 : Byte).val = 0 := rfl
    omega
  · rw [h] at hc ⊢
    rw [shl_or_one_val]
    have : (0x01 : Byte).val = 1 := rfl
    omega

/-- Doubling with the bit shifted out of the first byte kept apart. -/
theorem beValue_shifted_zero : ∀ (rest : ByteVector) (a : Byte),
    beValue (shifted (0x00 : Byte) a rest) + 256 ^ (rest.length + 1) * (a.val / 128)
      = 2 * beValue (a :: rest) := by
  intro rest
  induction rest with
  | nil =>
    intro a
    have ha := a.isLt
    simp only [shifted, beValue, byte_xor_zero, shl_val, List.length_nil, pow_zero, mul_one,
      add_zero, zero_add, pow_one]
    omega
  | cons b rest ih =>
    intro a
    have ha := a.isLt
    have hi := ih b
    have hlen : (shifted 0x00 b rest).length = rest.length + 1 := shifted_length _ _ _
    simp only [shifted, beValue, hlen, shl_or_carry_val, List.length_cons] at hi ⊢
    rw [pow_succ 256 (rest.length + 1)]
    generalize 256 ^ (rest.length + 1) = P at hi ⊢
    generalize beValue (shifted 0x00 b rest) = S at hi ⊢
    generalize beValue rest = R at hi ⊢
    have h1 : (2 * a.val % 256 + b.val / 128) * P
        = (2 * a.val % 256) * P + (b.val / 128) * P := Nat.add_mul _ _ _
    have h2 : (2 * a.val % 256) * P + 256 * ((a.val / 128) * P) = 2 * (a.val * P) := by
      have e : 2 * a.val % 256 + 256 * (a.val / 128) = 2 * a.val := by omega
      calc (2 * a.val % 256) * P + 256 * ((a.val / 128) * P)
          = (2 * a.val % 256 + 256 * (a.val / 128)) * P := by ring
        _ = 2 * (a.val * P) := by rw [e]; ring
    have h3 : P * (b.val / 128) = (b.val / 128) * P := Nat.mul_comm _ _
    have h5 : P * 256 * (a.val / 128) = 256 * ((a.val / 128) * P) := by ring
    generalize (a.val / 128) * P = X at h2 h5
    generalize (b.val / 128) * P = Y at h1 h3
    generalize (2 * a.val % 256) * P = Z at h1 h2
    generalize a.val * P = W at h2 ⊢
    omega

theorem beValue_shifted_mod (a : Byte) (rest : ByteVector) :
    beValue (shifted (0x00 : Byte) a rest)
      = (2 * beValue (a :: rest)) % 2 ^ (8 * (a :: rest).length) := by
  have h := beValue_shifted_zero rest a
  have hlt := beValue_lt (shifted (0x00 : Byte) a rest)
  rw [shifted_length] at hlt
  have hp : (2 : Nat) ^ (8 * (a :: rest).length) = 256 ^ (rest.length + 1) := by
    rw [List.length_cons, pow_mul]; norm_num
  rw [hp, ← h, Nat.add_mul_mod_self_left]
  exact (Nat.mod_eq_of_lt hlt).symm

/-- On a non-empty buffer: the result without xor constant, the result with
it, and the value of the former. -/
theorem shift_string_nonempty (b : ByteVector) (x : Byte) (hb : b ≠ []) :
    ∃ (front : ByteVector) (last : Byte),
      shift_string b = .ok (front ++ [last]) ∧
      shift_string b x = .ok (front ++ [last ^^^ x]) ∧
      (front ++ [last]).length = b.length ∧
      beValue (front ++ [last]) = (2 * beValue b) % 2 ^ (8 * b.length) := by
  cases b with
  | nil => exact absurd rfl hb
  | cons a rest =>
    obtain ⟨front, l, _, h2, h3⟩ := shift_loop_split rest a
    have h0 : shifted (0x00 : Byte) a rest = front ++ [l <<< 1] := by
      rw [h3, byte_xor_zero]
    refine ⟨front, l <<< 1, ?_, ?_, ?_, ?_⟩
    · rw [← h0]; exact shift_string_cons a rest 0x00
    · rw [← h3 x]; exact shift_string_cons a rest x
    · simp [h2]
    · rw [← h0]; exact beValue_shifted_mod a rest

/-! ## C4, C5: `shift_string` -/

/-- C4: on every non-empty buffer `b` of `n` bytes `shift_string` returns a
buffer of `n` bytes.  Without xor constant the result, read as a big-endian
unsigned integer, is `(2 * value b) mod 2 ^ (8 * n)`; with xor constant `x` the
result is that same buffer with its last byte XORed with `x` and every other
byte untouched.  The two examples of the specification hold. -/
theorem C4_shift_string_doubles :
    (∀ (b : ByteVector) (x : Byte), b ≠ [] →
      ∃ (front : ByteVector) (last : Byte),
        shift_string b = .ok (front ++ [last]) ∧
        shift_string b x = .ok (front ++ [last ^^^ x]) ∧
        (front ++ [last]).length = b.length ∧
        beValue (front ++ [last]) = (2 * beValue b) % 2 ^ (8 * b.length)) ∧
    shift_string [0x00, 0x80] = .ok [0x01, 0x00] ∧
    shift_string [0x80, 0x00] 0x87 = .ok [0x00, 0x87] := by
  exact ⟨shift_string_nonempty, by decide, by decide⟩

/-- C4, at the buffer `[0x80, 0x01, 0xff]` with xor constant `0x1b`. -/
theorem C4_shift_string_doubles_witness :
    ∃ (front : ByteVector) (last : Byte),
      shift_string [0x80, 0x01, 0xff] = .ok (front ++ [last]) ∧
      shift_string [0x80, 0x01, 0xff] 0x1b = .ok (front ++ [last ^^^ 0x1b]) ∧
      (front ++ [last]).length = [(0x80 : Byte), 0x01, 0xff].length ∧
      beValue (front ++ [last])
        = (2 * beValue [0x80, 0x01, 0xff]) % 2 ^ (8 * [(0x80 : Byte), 0x01, 0xff].length) :=
  C4_shift_string_doubles.1 [0x80, 0x01, 0xff] 0x1b (by decide)

/-- C5: on the empty buffer the loop bound `ret.size() - 1` wraps to
`2 ^ 64 - 1` and the first iteration already reads `ret[0]` of a buffer without
elements: `shift_string` does not return a buffer, whatever the xor constant.
On every non-empty buffer it returns a buffer of the same length, all accesses
in bounds. -/
theorem C5_shift_string_empty_buffer_out_of_bounds :
    shift_string [] = .error .outOfBounds ∧
    (∀ x : Byte, shift_string [] x = .error .outOfBounds) ∧
    (∀ (buf : ByteVector) (x : Byte), buf ≠ [] →
      ∃ r, shift_string buf x = .ok r ∧ r.length = buf.length) := by
  refine ⟨by decide, ?_, ?_⟩
  · intro x
    have h : toSizeT ((([] : ByteVector).length : Int) - 1) = 18446744073709551615 := by decide
    simp only [shift_string, h]
    rfl
  · intro buf x hb
    cases buf with
    | nil => exact absurd rfl hb
    | cons a rest =>
      exact ⟨shifted x a rest, shift_string_cons a rest x, shifted_length x rest a⟩

/-! ## The subkey XOR loop -/

theorem xor_body_append (Kdone : ByteVector) (k : Byte) (Ktodo front : ByteVector) (t : Byte)
    (todo : ByteVector) (h : Ktodo.length = todo.length) :
    xor_body (Kdone ++ k :: Ktodo) Kdone.length (front ++ t :: todo)
      = .ok (front ++ (t ^^^ k) :: todo) := by
  have hidx : toSizeT (((front ++ t :: todo).length : Int) - ((Kdone ++ k :: Ktodo).length : Int)
      + (Kdone.length : Int)) = front.length := by
    unfold toSizeT
    simp only [List.length_append, List.length_cons, h]
    split <;> omega
  simp only [xor_body, hidx, bind, Except.bind, rd_append_cons, wr_append_cons]

theorem forLoop_xor_body : ∀ (Ktodo todo Kdone front : ByteVector),
    Ktodo.length = todo.length →
    forLoop (xor_body (Kdone ++ Ktodo)) Ktodo.length Kdone.length (front ++ todo)
      = .ok (front ++ List.zipWith (· ^^^ ·) todo Ktodo) := by
  intro Ktodo
  induction Ktodo with
  | nil =>
    intro todo Kdone front h
    cases todo with
    | nil => simp [forLoop]
    | cons t tt => simp at h
  | cons k Kt ih =>
    intro todo Kdone front h
    cases todo with
    | nil => simp at h
    | cons t tt =>
      have hl : Kt.length = tt.length := by simpa using h
      simp only [List.length_cons, forLoop, xor_body_append Kdone k Kt front t tt hl,
        List.zipWith_cons_cons]
      have h2 := ih tt (Kdone ++ [k]) (front ++ [t ^^^ k]) hl
      simpa using h2

/-- When the subkey is not longer than the buffer, the XOR loop stays in
bounds and changes exactly the last `K.length` bytes. -/
theorem xor_subkey_eq (padded K : ByteVector) (h : K.length ≤ padded.length) :
    xor_subkey padded K = .ok (xor_last padded K) := by
  have hd : K.length = (padded.drop (padded.length - K.length)).length := by
    simp only [List.length_drop]; omega
  have h1 := forLoop_xor_body K (padded.drop (padded.length - K.length)) []
    (padded.take (padded.length - K.length)) hd
  simpa [xor_subkey, xor_last] using h1

theorem xor_last_length (padded K : ByteVector) (h : K.length ≤ padded.length) :
    (xor_last padded K).length = padded.length := by
  simp only [xor_last, List.length_append, List.length_take, List.length_zipWith,
    List.length_drop]
  omega

/-! ## Subkey derivation -/

set_option maxRecDepth 100000 in
theorem top_bit_clear_iff : ∀ b : Byte, b &&& (0x80 : Byte) = (0x00 : Byte) ↔ b.val < 128 := by
  decide

theorem subkey_of_length (L : ByteVector) (rb : Byte) : (subkey_of L rb).length = L.length := by
  cases L with
  | nil => rfl
  | cons a rest => simp [subkey_of, shifted_length]

theorem subkey_of_ne_nil (L : ByteVector) (rb : Byte) (h : L ≠ []) : subkey_of L rb ≠ [] := by
  intro h0
  have h1 := subkey_of_length L rb
  rw [h0] at h1
  exact h (List.length_eq_zero.mp h1.symm)

theorem next_subkey_eq (L : ByteVector) (rb : Byte) (h : L ≠ []) :
    next_subkey L rb = .ok (subkey_of L rb) := by
  cases L with
  | nil => exact absurd rfl h
  | cons a rest =>
    have hr : rd (a :: rest) 0 = .ok a := rd_append_cons [] a rest
    simp only [next_subkey, hr, bind, Except.bind, subkey_of]
    split
    · exact shift_string_cons a rest 0x00
    · exact shift_string_cons a rest rb

theorem subkeys_eq (impl : CipherImpl) (key : ByteVector) (cipherMAC : OpenSSLSymmetricCipher)
    (block_size : Nat) (L : ByteVector)
    (hL : impl (cipherK1K2 cipherMAC) (List.replicate block_size 0x00) (symkey cipherMAC key)
      (.createNull cipherMAC.family) = .ok L)
    (hne : L ≠ []) :
    subkeys impl key cipherMAC block_size
      = .ok (subkey_of L (Rb block_size), subkey_of (subkey_of L (Rb block_size)) (Rb block_size)) := by
  simp only [subkeys, run_cipher, hL, bind, Except.bind, next_subkey_eq L _ hne,
    next_subkey_eq _ _ (subkey_of_ne_nil L _ hne), pure, Except.pure]

/-! ## C6: the subkeys -/

/-- C6: when the ECB encryption of the zero block of `block_size` bytes is the
non-empty buffer `L = l0 :: rest`, the low-level `cmac` derives
`K1 = shift_string(L)` if the top bit of `L[0]` is 0 and
`K1 = shift_string(L, Rb)` otherwise, then `K2` from `K1` by the same rule;
both have the length of `L`.  For `block_size = 16` the constant is `0x87`, and
it only changes the last byte of the shifted buffer. -/
theorem C6_subkeys_derivation (impl : CipherImpl) (key : ByteVector)
    (cipherMAC : OpenSSLSymmetricCipher) (block_size : Nat) (l0 : Byte) (rest : ByteVector)
    (hL : impl (cipherK1K2 cipherMAC) (List.replicate block_size 0x00) (symkey cipherMAC key)
      (.createNull cipherMAC.family) = .ok (l0 :: rest)) :
    ∃ (k0 : Byte) (krest K2 : ByteVector),
      subkeys impl key cipherMAC block_size = .ok (k0 :: krest, K2) ∧
      (l0.val < 128 → shift_string (l0 :: rest) = .ok (k0 :: krest)) ∧
      (128 ≤ l0.val → shift_string (l0 :: rest) (Rb block_size) = .ok (k0 :: krest)) ∧
      (k0.val < 128 → shift_string (k0 :: krest) = .ok K2) ∧
      (128 ≤ k0.val → shift_string (k0 :: krest) (Rb block_size) = .ok K2) ∧
      (k0 :: krest).length = (l0 :: rest).length ∧ K2.length = (l0 :: rest).length ∧
      (block_size = 16 → Rb block_size = 0x87) ∧
      ∃ (front : ByteVector) (last : Byte),
        shift_string (l0 :: rest) = .ok (front ++ [last]) ∧
        shift_string (l0 :: rest) (Rb block_size) = .ok (front ++ [last ^^^ Rb block_size]) := by
  have hsub := subkeys_eq impl key cipherMAC block_size (l0 :: rest) hL (List.cons_ne_nil _ _)
  have hK1len := subkey_of_length (l0 :: rest) (Rb block_size)
  have hK1 : ∃ k0 krest, subkey_of (l0 :: rest) (Rb block_size) = k0 :: krest := by
    cases hk : subkey_of (l0 :: rest) (Rb block_size) with
    | nil => rw [hk] at hK1len; simp at hK1len
    | cons k0 krest => exact ⟨k0, krest, rfl⟩
  obtain ⟨k0, krest, hk⟩ := hK1
  rw [hk] at hsub hK1len
  have hstep : ∀ (a : Byte) (r : ByteVector),
      (a.val < 128 → shift_string (a :: r) = .ok (subkey_of (a :: r) (Rb block_size))) ∧
      (128 ≤ a.val → shift_string (a :: r) (Rb block_size)
        = .ok (subkey_of (a :: r) (Rb block_size))) := by
    intro a r
    constructor
    · intro h
      have hb := (top_bit_clear_iff a).mpr h
      simp only [subkey_of, hb, if_true]
      exact shift_string_cons a r 0x00
    · intro h
      have hb : ¬ (a &&& (0x80 : Byte) = (0x00 : Byte)) := fun hc =>
        absurd ((top_bit_clear_iff a).mp hc) (by omega)
      simp only [subkey_of, hb, if_false]
      exact shift_string_cons a r (Rb block_size)
  obtain ⟨front, last, h1, h2, _, _⟩ :=
    shift_string_nonempty (l0 :: rest) (Rb block_size) (List.cons_ne_nil _ _)
  refine ⟨k0, krest, subkey_of (k0 :: krest) (Rb block_size), hsub, ?_, ?_, (hstep k0 krest).1,
    (hstep k0 krest).2, hK1len, ?_, ?_, front, last, h1, h2⟩
  · intro h; rw [← hk]; exact (hstep l0 rest).1 h
  · intro h; rw [← hk]; exact (hstep l0 rest).2 h
  · rw [subkey_of_length]; exact hK1len
  · intro h; subst h; rfl

/-- C6, for a DES delegate with `block_size = 8` under the stand-in cipher and
key `[0xc0]`: `L` is eight bytes `0xc0`, its top bit is set. -/
theorem C6_subkeys_derivation_witness :
    ∃ (k0 : Byte) (krest K2 : ByteVector),
      subkeys xor_key_cipher [0xc0] { family := .DES, mode := .ENC_MODE_CBC } 8
        = .ok (k0 :: krest, K2) ∧
      ((0xc0 : Byte).val < 128 →
        shift_string (0xc0 :: List.replicate 7 0xc0) = .ok (k0 :: krest)) ∧
      (128 ≤ (0xc0 : Byte).val →
        shift_string (0xc0 :: List.replicate 7 0xc0) (Rb 8) = .ok (k0 :: krest)) ∧
      (k0.val < 128 → shift_string (k0 :: krest) = .ok K2) ∧
      (128 ≤ k0.val → shift_string (k0 :: krest) (Rb 8) = .ok K2) ∧
      (k0 :: krest).length = ((0xc0 : Byte) :: List.replicate 7 0xc0).length ∧
      K2.length = ((0xc0 : Byte) :: List.replicate 7 0xc0).length ∧
      (8 = 16 → Rb 8 = 0x87) ∧
      ∃ (front : ByteVector) (last : Byte),
        shift_string (0xc0 :: List.replicate 7 0xc0) = .ok (front ++ [last]) ∧
        shift_string (0xc0 :: List.replicate 7 0xc0) (Rb 8) = .ok (front ++ [last ^^^ Rb 8]) :=
  C6_subkeys_derivation xor_key_cipher [0xc0] { family := .DES, mode := .ENC_MODE_CBC } 8 0xc0
    (List.replicate 7 0xc0) (by decide)

/-! ## C7, C8: the padding -/

theorem toInt32_of_lt (v : Nat) (h : v < 2 ^ 31) : toInt32 v = (v : Int) := by
  unfold toInt32
  split <;> omega

/-- The pad length as a natural number, for granularities an `int` can hold. -/
theorem pad_length_eq (g n : Nat) (h1 : 1 ≤ g) (h2 : g < 2 ^ 31) :
    pad_length g n = .ok ((if n = 0 then g else (g - n % g) % g : Nat) : Int) := by
  have hg : g ≠ 0 := by omega
  have hlt : (g - n % g) % g < g := Nat.mod_lt _ (by omega)
  unfold pad_length
  simp only [hg, if_false]
  by_cases hn : n = 0
  · simp only [hn, if_true, toInt32_of_lt g h2]
  · simp only [hn, if_false, toInt32_of_lt _ (by omega : (g - n % g) % g < 2 ^ 31)]

theorem pad_formula_dvd (g n : Nat) (h1 : 1 ≤ g) : g ∣ n + (g - n % g) % g := by
  have hr : n % g < g := Nat.mod_lt _ (by omega)
  have hn : g * (n / g) + n % g = n := Nat.div_add_mod n g
  by_cases h0 : n % g = 0
  · rw [h0, Nat.sub_zero, Nat.mod_self, Nat.add_zero]
    exact Nat.dvd_of_mod_eq_zero h0
  · rw [Nat.mod_eq_of_lt (by omega : g - n % g < g)]
    refine ⟨n / g + 1, ?_⟩
    rw [Nat.mul_add, Nat.mul_one]
    omega

/-- C7 as stated fails for a granularity an `int` cannot hold: with
`padding_size = 2 ^ 31` and an empty message the `int pad` is `-2 ^ 31`, not
the granularity. -/
theorem C7_pad_length_counterexample :
    pad_length 2147483648 0 = .ok (-2147483648) ∧
    pad_length 2147483648 0 ≠ .ok 2147483648 := by
  decide

/-- C7, amended: for every granularity `g` with `1 ≤ g < 2 ^ 31` and every
data length `n` the pad length computed by the low-level `cmac` is `g` when
`n = 0` and `(g - n mod g) mod g` otherwise; so `0 ≤ pad < g` for a non-empty
message, `pad = g` for the empty one, and `n + pad` is a multiple of `g`.
With `g = 16` the pad is 16, 0, 15 for `n = 0, 16, 17`. -/
theorem C7_pad_length (g n : Nat) (h1 : 1 ≤ g) (h2 : g < 2 ^ 31) :
    (∃ pad : Int, pad_length g n = .ok pad ∧
      (n = 0 → pad = (g : Int)) ∧
      (n ≠ 0 → pad = (((g - n % g) % g : Nat) : Int) ∧ 0 ≤ pad ∧ pad < (g : Int)) ∧
      (g : Int) ∣ (n : Int) + pad) ∧
    pad_length 16 0 = .ok 16 ∧ pad_length 16 16 = .ok 0 ∧ pad_length 16 17 = .ok 15 := by
  refine ⟨⟨_, pad_length_eq g n h1 h2, ?_, ?_, ?_⟩, by decide, by decide, by decide⟩
  · intro hn; simp [hn]
  · intro hn
    have hlt : (g - n % g) % g < g := Nat.mod_lt _ (by omega)
    simp only [hn, if_false]
    exact ⟨trivial, Int.natCast_nonneg _, by exact_mod_cast hlt⟩
  · by_cases hn : n = 0
    · simp [hn]
    · simp only [hn, if_false]
      exact_mod_cast pad_formula_dvd g n h1

/-- C7, at `g = 8` and `n = 11`. -/
theorem C7_pad_length_witness :
    (∃ pad : Int, pad_length 8 11 = .ok pad ∧
      (11 = 0 → pad = ((8 : Nat) : Int)) ∧
      (11 ≠ 0 → pad = (((8 - 11 % 8) % 8 : Nat) : Int) ∧ 0 ≤ pad ∧ pad < ((8 : Nat) : Int)) ∧
      ((8 : Nat) : Int) ∣ ((11 : Nat) : Int) + pad) ∧
    pad_length 16 0 = .ok 16 ∧ pad_length 16 16 = .ok 0 ∧ pad_length 16 17 = .ok 15 :=
  C7_pad_length 8 11 (by decide) (by decide)

theorem push_zeros_eq : ∀ (n : Nat) (v : ByteVector),
    push_zeros n v = v ++ List.replicate n 0x00 := by
  intro n
  induction n with
  | zero => intro v; simp [push_zeros]
  | succ n ih => intro v; simp [push_zeros, ih, List.replicate_succ]

/-- The padded buffer for a pad length that is not negative. -/
theorem pad_data_eq (data : ByteVector) (p : Nat) :
    pad_data data (p : Int)
      = if p = 0 then data else data ++ 0x80 :: List.replicate (p - 1) 0x00 := by
  unfold pad_data
  by_cases h0 : p = 0
  · subst h0; simp
  · have hpos : (p : Int) > 0 := by omega
    simp only [hpos, if_true, h0, if_false]
    by_cases h1 : (p : Int) > 1
    · have ht : ((p : Int) - 1).toNat = p - 1 := by omega
      simp only [h1, if_true, push_zeros_eq, ht]
      simp
    · have hp : p = 1 := by omega
      subst hp
      simp

theorem pad_data_prefix (data : ByteVector) (p : Nat) : data <+: pad_data data (p : Int) := by
  rw [pad_data_eq]
  split
  · exact List.prefix_refl _
  · exact List.prefix_append _ _

theorem pad_data_length (data : ByteVector) (p : Nat) :
    (pad_data data (p : Int)).length = data.length + p := by
  rw [pad_data_eq]
  split
  · next h => rw [h, Nat.add_zero]
  · next h =>
    simp only [List.length_append, List.length_cons, List.length_replicate]
    omega

/-- A pad length that is not positive leaves the message as it is. -/
theorem pad_data_of_nonpos (data : ByteVector) (pad : Int) (h : pad ≤ 0) :
    pad_data data pad = data := by
  unfold pad_data
  have : ¬ pad > 0 := by omega
  simp only [this, if_false]

/-- C8 as stated fails for a granularity an `int` cannot hold: with
`padding_size = 2 ^ 31` the `int pad` of the empty message is negative, nothing
is appended and the padded buffer is empty. -/
theorem C8_padded_buffer_counterexample :
    pad_length 2147483648 ([] : ByteVector).length = .ok (-2147483648) ∧
    pad_data [] (-2147483648) = [] ∧
    ¬ (0 < (pad_data [] (-2147483648)).length) := by
  decide

/-- C8, amended: for every message and every granularity `g` with
`1 ≤ g < 2 ^ 31` the padded buffer built by the low-level `cmac` is the message
itself when `pad = 0`, and otherwise the message followed by one `0x80` byte
and `pad - 1` zero bytes; the message is a prefix of it, and its length is a
positive multiple of `g`, also for the empty message. -/
theorem C8_padded_buffer (data : ByteVector) (g : Nat) (h1 : 1 ≤ g) (h2 : g < 2 ^ 31) :
    ∃ pad : Int, pad_length g data.length = .ok pad ∧
      (pad = 0 → pad_data data pad = data) ∧
      (pad ≠ 0 → pad_data data pad = data ++ 0x80 :: List.replicate (pad - 1).toNat 0x00) ∧
      data <+: pad_data data pad ∧
      0 < (pad_data data pad).length ∧
      g ∣ (pad_data data pad).length := by
  refine ⟨_, pad_length_eq g data.length h1 h2, ?_, ?_, ?_, ?_, ?_⟩
  · intro h
    rw [h]
    exact pad_data_of_nonpos data 0 (le_refl _)
  · intro h
    rw [pad_data_eq]
    have hp : (if data.length = 0 then g else (g - data.length % g) % g) ≠ 0 := by
      intro h0; rw [h0] at h; exact h rfl
    simp only [hp, if_false]
    congr 3
    omega
  · exact pad_data_prefix data _
  · rw [pad_data_length]
    by_cases hn : data.length = 0
    · simp only [hn, if_true]; omega
    · omega
  · rw [pad_data_length]
    by_cases hn : data.length = 0
    · simp only [hn, if_true, Nat.zero_add]; exact dvd_refl g
    · simp only [hn, if_false]
      exact pad_formula_dvd g data.length h1

/-- C8, at the message `[1, 2, 3]` with granularity 8. -/
theorem C8_padded_buffer_witness :
    ∃ pad : Int, pad_length 8 [(1 : Byte), 2, 3].length = .ok pad ∧
      (pad = 0 → pad_data [1, 2, 3] pad = [1, 2, 3]) ∧
      (pad ≠ 0 →
        pad_data [1, 2, 3] pad = [1, 2, 3] ++ 0x80 :: List.replicate (pad - 1).toNat 0x00) ∧
      [1, 2, 3] <+: pad_data [1, 2, 3] pad ∧
      0 < (pad_data [1, 2, 3] pad).length ∧
      8 ∣ (pad_data [1, 2, 3] pad).length :=
  C8_padded_buffer [1, 2, 3] 8 (by decide) (by decide)

/-! ## C9, C10: the subkey XOR of the last block -/

/-- C9: when the subkeys have `block_size` bytes and the padded buffer has at
least `block_size` bytes, the low-level `cmac` hands to the chained cipher the
padded buffer with its last `block_size` bytes XORed with a subkey and every
earlier byte unchanged; the subkey is `K1` when `pad = 0` and `forceK2Use` is
false, and `K2` in every other case.  With granularity 16 and `forceK2Use`
false the lengths 0, 16, 17 give pad 16, 0, 15, hence `K2`, `K1`, `K2`. -/
theorem C9_last_block_masked :
    (∀ (impl : CipherImpl) (key : ByteVector) (cipherMAC : OpenSSLSymmetricCipher)
        (block_size : Nat) (data lastIV : ByteVector) (padding_size : Nat) (forceK2Use : Bool)
        (K1 K2 : ByteVector) (pad : Int),
      subkeys impl key cipherMAC block_size = .ok (K1, K2) →
      K1.length = block_size → K2.length = block_size →
      pad_length padding_size data.length = .ok pad →
      block_size ≤ (pad_data data pad).length →
      cmac_low impl key cipherMAC block_size data lastIV padding_size forceK2Use
        = run_cipher impl cipherMAC
            ((pad_data data pad).take ((pad_data data pad).length - block_size)
              ++ List.zipWith (· ^^^ ·)
                  ((pad_data data pad).drop ((pad_data data pad).length - block_size))
                  (if pad = 0 ∧ forceK2Use = false then K1 else K2))
            (symkey cipherMAC key) (.createFromData cipherMAC.family lastIV)) ∧
    (pad_length 16 0 = .ok 16 ∧
      ∀ padded K1 K2, mask_last_block padded K1 K2 16 false = xor_subkey padded K2) ∧
    (pad_length 16 16 = .ok 0 ∧
      ∀ padded K1 K2, mask_last_block padded K1 K2 0 false = xor_subkey padded K1) ∧
    (pad_length 16 17 = .ok 15 ∧
      ∀ padded K1 K2, mask_last_block padded K1 K2 15 false = xor_subkey padded K2) := by
  refine ⟨?_, ⟨by decide, fun _ _ _ => rfl⟩, ⟨by decide, fun _ _ _ => rfl⟩,
    ⟨by decide, fun _ _ _ => rfl⟩⟩
  intro impl key cipherMAC block_size data lastIV padding_size forceK2Use K1 K2 pad
    hsub hK1 hK2 hpad hlen
  simp only [cmac_low, hsub, hpad, bind, Except.bind, mask_last_block]
  by_cases hc : pad = 0 ∧ forceK2Use = false
  · obtain ⟨hp0, hf⟩ := hc
    subst hp0 hf
    simp only [and_self, if_true]
    rw [xor_subkey_eq _ K1 (by omega)]
    simp only [xor_last, hK1]
  · simp only [hc, if_false]
    rw [xor_subkey_eq _ K2 (by omega)]
    simp only [xor_last, hK2]

/-- C10: for every key, cipher delegate, block size, last IV, granularity
`g ≥ 1` (an `unsigned int`) and every message whose length is not a multiple of
`g`, the low-level `cmac` returns the same result with `forceK2Use = true` as
with `forceK2Use = false`. -/
theorem C10_forceK2Use_noop_when_unaligned (impl : CipherImpl) (key : ByteVector)
    (cipherMAC : OpenSSLSymmetricCipher) (block_size : Nat) (data lastIV : ByteVector)
    (g : Nat) (_h1 : 1 ≤ g) (h2 : g < 2 ^ 32) (hn : data.length % g ≠ 0) :
    cmac_low impl key cipherMAC block_size data lastIV g true
      = cmac_low impl key cipherMAC block_size data lastIV g false := by
  have hg : g ≠ 0 := by omega
  have hr : data.length % g < g := Nat.mod_lt _ (by omega)
  have hd : data.length ≠ 0 := by
    intro h0; rw [h0, Nat.zero_mod] at hn; exact hn rfl
  have hv : (g - data.length % g) % g = g - data.length % g :=
    Nat.mod_eq_of_lt (by omega)
  have hpad : ∀ pad, pad_length g data.length = .ok pad → pad ≠ 0 := by
    intro pad hp
    simp only [pad_length, hg, if_false, hd, hv, Except.ok.injEq] at hp
    rw [← hp]
    unfold toInt32
    split <;> omega
  unfold cmac_low
  cases hs : subkeys impl key cipherMAC block_size with
  | error e => rfl
  | ok ks =>
    cases hp : pad_length g data.length with
    | error e => rfl
    | ok pad =>
      have h0 := hpad pad hp
      simp only [bind, Except.bind, mask_last_block, h0, false_and, if_false]

/-- C9, for a DES delegate with `block_size = 8`, the message `[1, 2, 3]` and
granularity 8 under the stand-in cipher with key `[0xc0]`: pad is 5 and the
subkey is `K2`. -/
theorem C9_last_block_masked_witness :
    cmac_low xor_key_cipher [0xc0] { family := .DES, mode := .ENC_MODE_CBC } 8 [1, 2, 3] [] 8 false
      = run_cipher xor_key_cipher { family := .DES, mode := .ENC_MODE_CBC }
          ((pad_data [1, 2, 3] 5).take ((pad_data [1, 2, 3] 5).length - 8)
            ++ List.zipWith (· ^^^ ·)
                ((pad_data [1, 2, 3] 5).drop ((pad_data [1, 2, 3] 5).length - 8))
                (if (5 : Int) = 0 ∧ false = false
                  then [129, 129, 129, 129, 129, 129, 129, 155]
                  else [3, 3, 3, 3, 3, 3, 3, 45]))
          (symkey { family := .DES, mode := .ENC_MODE_CBC } [0xc0])
          (.createFromData .DES []) :=
  C9_last_block_masked.1 xor_key_cipher [0xc0] { family := .DES, mode := .ENC_MODE_CBC } 8
    [1, 2, 3] [] 8 false [129, 129, 129, 129, 129, 129, 129, 155] [3, 3, 3, 3, 3, 3, 3, 45] 5
    (by decide) (by decide) (by decide) (by decide) (by decide)

/-- C10, for the three-byte message `[1, 2, 3]` with granularity 8. -/
theorem C10_forceK2Use_noop_when_unaligned_witness :
    cmac_low xor_key_cipher [0xc0] { family := .DES, mode := .ENC_MODE_CBC } 8 [1, 2, 3]
        (List.replicate 8 0x00) 8 true
      = cmac_low xor_key_cipher [0xc0] { family := .DES, mode := .ENC_MODE_CBC } 8 [1, 2, 3]
        (List.replicate 8 0x00) 8 false :=
  C10_forceK2Use_noop_when_unaligned xor_key_cipher [0xc0]
    { family := .DES, mode := .ENC_MODE_CBC } 8 [1, 2, 3] (List.replicate 8 0x00) 8
    (by decide) (by decide) (by decide)

/-! ## C3: the unsupported algorithm -/

/-- The result is not the exception of line 39. -/
theorem not_raises_ok {α : Type} (a : α) : ¬ raises_wrong_crypto (Except.ok a : Except Fault α) := by
  rintro ⟨msg, h⟩; cases h

theorem not_raises_bind {α β : Type} (x : Except Fault α) (f : α → Except Fault β)
    (hx : ¬ raises_wrong_crypto x) (hf : ∀ a, ¬ raises_wrong_crypto (f a)) :
    ¬ raises_wrong_crypto (x >>= f) := by
  cases x with
  | error e =>
    rintro ⟨msg, h⟩
    have h1 : (Except.error e : Except Fault α) = .error (.wrongCryptoMechanism msg) := by
      cases h; rfl
    exact hx ⟨msg, h1⟩
  | ok a => exact hf a

theorem not_raises_rd (v : ByteVector) (i : Nat) : ¬ raises_wrong_crypto (rd v i) := by
  rintro ⟨msg, h⟩
  unfold rd at h
  split at h <;> cases h

theorem not_raises_wr (v : ByteVector) (i : Nat) (b : Byte) :
    ¬ raises_wrong_crypto (wr v i b) := by
  rintro ⟨msg, h⟩
  unfold wr at h
  split at h <;> cases h

theorem not_raises_forLoop {σ : Type} (body : Nat → σ → Except Fault σ)
    (hb : ∀ i s, ¬ raises_wrong_crypto (body i s)) :
    ∀ n i s, ¬ raises_wrong_crypto (forLoop body n i s) := by
  intro n
  induction n with
  | zero => intro i s; exact not_raises_ok s
  | succ n ih =>
    intro i s
    unfold forLoop
    cases hbody : body i s with
    | error e =>
      rintro ⟨msg, h⟩
      exact hb i s ⟨msg, by rw [hbody]; exact h⟩
    | ok s1 => exact ih (i + 1) s1

theorem not_raises_shift_body (i : Nat) (ret : ByteVector) :
    ¬ raises_wrong_crypto (shift_body i ret) := by
  unfold shift_body
  refine not_raises_bind _ _ (not_raises_rd _ _) fun a => ?_
  refine not_raises_bind _ _ (not_raises_wr _ _ _) fun ret1 => ?_
  refine not_raises_bind _ _ (not_raises_rd _ _) fun next => ?_
  refine not_raises_bind _ _ (not_raises_rd _ _) fun a1 => ?_
  exact not_raises_wr _ _ _

theorem not_raises_shift_string (buf : ByteVector) (x : Byte) :
    ¬ raises_wrong_crypto (shift_string buf x) := by
  unfold shift_string
  refine not_raises_bind _ _ (not_raises_forLoop _ not_raises_shift_body _ _ _) fun ret => ?_
  refine not_raises_bind _ _ (not_raises_rd _ _) fun a => ?_
  refine not_raises_bind _ _ (not_raises_wr _ _ _) fun ret1 => ?_
  split
  · exact not_raises_bind _ _ (not_raises_rd _ _) fun a1 => not_raises_wr _ _ _
  · exact not_raises_ok _

theorem not_raises_next_subkey (L : ByteVector) (rb : Byte) :
    ¬ raises_wrong_crypto (next_subkey L rb) := by
  unfold next_subkey
  refine not_raises_bind _ _ (not_raises_rd _ _) fun a => ?_
  split
  · exact not_raises_shift_string _ _
  · exact not_raises_shift_string _ _

theorem not_raises_run_cipher (impl : CipherImpl) (c : OpenSSLSymmetricCipher) (src : ByteVector)
    (k : SymmetricKey) (iv : InitializationVector) :
    ¬ raises_wrong_crypto (run_cipher impl c src k iv) := by
  rintro ⟨msg, h⟩
  unfold run_cipher at h
  split at h <;> cases h

theorem not_raises_subkeys (impl : CipherImpl) (key : ByteVector) (c : OpenSSLSymmetricCipher)
    (block_size : Nat) : ¬ raises_wrong_crypto (subkeys impl key c block_size) := by
  unfold subkeys
  refine not_raises_bind _ _ (not_raises_run_cipher _ _ _ _ _) fun L => ?_
  refine not_raises_bind _ _ (not_raises_next_subkey _ _) fun K1 => ?_
  refine not_raises_bind _ _ (not_raises_next_subkey _ _) fun K2 => ?_
  exact not_raises_ok _

theorem not_raises_pad_length (g n : Nat) : ¬ raises_wrong_crypto (pad_length g n) := by
  rintro ⟨msg, h⟩
  unfold pad_length at h
  split at h
  · cases h
  · split at h <;> cases h

theorem not_raises_xor_subkey (padded K : ByteVector) :
    ¬ raises_wrong_crypto (xor_subkey padded K) := by
  unfold xor_subkey
  refine not_raises_forLoop _ (fun i s => ?_) _ _ _
  unfold xor_body
  refine not_raises_bind _ _ (not_raises_rd _ _) fun a => ?_
  refine not_raises_bind _ _ (not_raises_rd _ _) fun k => ?_
  exact not_raises_wr _ _ _

theorem not_raises_cmac_low (impl : CipherImpl) (key : ByteVector) (c : OpenSSLSymmetricCipher)
    (block_size : Nat) (data lastIV : ByteVector) (g : Nat) (force : Bool) :
    ¬ raises_wrong_crypto (cmac_low impl key c block_size data lastIV g force) := by
  unfold cmac_low
  refine not_raises_bind _ _ (not_raises_subkeys _ _ _ _) fun ks => ?_
  refine not_raises_bind _ _ (not_raises_pad_length _ _) fun pad => ?_
  refine not_raises_bind _ _ ?_ fun padded => not_raises_run_cipher _ _ _ _ _
  unfold mask_last_block
  split
  · exact not_raises_xor_subkey _ _
  · exact not_raises_xor_subkey _ _

theorem not_raises_ivCopyLoop (iv : ByteVector) :
    ∀ fuel i lastiv, ¬ raises_wrong_crypto (ivCopyLoop iv fuel i lastiv) := by
  intro fuel
  induction fuel with
  | zero => intro i lastiv; rintro ⟨msg, h⟩; cases h
  | succ fuel ih =>
    intro i lastiv
    unfold ivCopyLoop
    split
    · cases hr : rd iv i with
      | error e =>
        dsimp only
        rintro ⟨msg, h⟩
        exact not_raises_rd iv i ⟨msg, by rw [hr]; cases h; rfl⟩
      | ok b =>
        dsimp only
        cases hw : wr lastiv i b with
        | error e =>
          dsimp only
          rintro ⟨msg, h⟩
          exact not_raises_wr lastiv i b ⟨msg, by rw [hw]; exact h⟩
        | ok l1 => exact ih _ _
    · exact not_raises_ok _

theorem not_raises_build_lastiv (block_size : Nat) (iv : ByteVector) :
    ¬ raises_wrong_crypto (build_lastiv block_size iv) := by
  unfold build_lastiv
  split
  · exact not_raises_ivCopyLoop _ _ _ _
  · exact not_raises_ok _

theorem select_cipher_unsupported (crypto : String) (h1 : crypto ≠ "des") (h2 : crypto ≠ "3des")
    (h3 : crypto ≠ "aes") :
    select_cipher crypto = .error (.wrongCryptoMechanism ("Wrong crypto mechanism: " ++ crypto)) := by
  simp [select_cipher, h1, h2, h3]

theorem select_cipher_supported (crypto : String)
    (h : crypto = "des" ∨ crypto = "3des" ∨ crypto = "aes") :
    (select_cipher crypto = .ok ({ family := .DES, mode := .ENC_MODE_CBC }, 8) ∧
      (crypto = "des" ∨ crypto = "3des")) ∨
    (select_cipher crypto = .ok ({ family := .AES, mode := .ENC_MODE_CBC }, 16) ∧
      crypto = "aes") := by
  rcases h with h | h | h
  · left; subst h; exact ⟨by decide, Or.inl rfl⟩
  · left; subst h; exact ⟨by decide, Or.inr rfl⟩
  · right; subst h; exact ⟨by decide, rfl⟩

theorem cmac_unsupported (impl : CipherImpl) (key : ByteVector) (crypto : String)
    (data iv : ByteVector) (padding_size : Int) (h1 : crypto ≠ "des") (h2 : crypto ≠ "3des")
    (h3 : crypto ≠ "aes") :
    cmac impl key crypto data iv padding_size
      = .error (.wrongCryptoMechanism ("Wrong crypto mechanism: " ++ crypto)) := by
  simp only [cmac, select_cipher_unsupported crypto h1 h2 h3, bind, Except.bind]

theorem cmac_supported_not_raises (impl : CipherImpl) (key : ByteVector) (crypto : String)
    (data iv : ByteVector) (padding_size : Int)
    (h : crypto = "des" ∨ crypto = "3des" ∨ crypto = "aes") :
    ¬ raises_wrong_crypto (cmac impl key crypto data iv padding_size) := by
  have hrest : ∀ (c : OpenSSLSymmetricCipher) (bs : Nat),
      ¬ raises_wrong_crypto (do
        let lastiv ← build_lastiv bs iv
        let r ← cmac_low impl key c bs data lastiv (toUInt32 (default_padding padding_size bs))
        pure (truncate_tag r bs) : Except Fault ByteVector) := by
    intro c bs
    refine not_raises_bind _ _ (not_raises_build_lastiv _ _) fun lastiv => ?_
    refine not_raises_bind _ _ (not_raises_cmac_low _ _ _ _ _ _ _ _) fun r => ?_
    exact not_raises_ok _
  rcases select_cipher_supported crypto h with ⟨hs, _⟩ | ⟨hs, _⟩
  · simp only [cmac, hs, bind, Except.bind]
    exact hrest _ _
  · simp only [cmac, hs, bind, Except.bind]
    exact hrest _ _

/-- C3: the high-level `cmac` ends with the unsupported-algorithm exception if
and only if the algorithm name is none of `"des"`, `"3des"`, `"aes"`, compared
exactly; in that case the result is the exception carrying the name, the same
for every key, data, IV, padding size and cipher, so no cipher call can have
taken part.  `"blowfish"` and `"AES"` are rejected. -/
theorem C3_unsupported_algorithm :
    (∀ (impl : CipherImpl) (key : ByteVector) (crypto : String) (data iv : ByteVector)
        (padding_size : Int),
      raises_wrong_crypto (cmac impl key crypto data iv padding_size)
        ↔ (crypto ≠ "des" ∧ crypto ≠ "3des" ∧ crypto ≠ "aes")) ∧
    (∀ (crypto : String), crypto ≠ "des" → crypto ≠ "3des" → crypto ≠ "aes" →
      ∀ (impl : CipherImpl) (key data iv : ByteVector) (padding_size : Int),
        cmac impl key crypto data iv padding_size
          = .error (.wrongCryptoMechanism ("Wrong crypto mechanism: " ++ crypto))) ∧
    (∀ (impl : CipherImpl) (key data iv : ByteVector) (padding_size : Int),
      cmac impl key "blowfish" data iv padding_size
        = .error (.wrongCryptoMechanism "Wrong crypto mechanism: blowfish")) ∧
    (∀ (impl : CipherImpl) (key data iv : ByteVector) (padding_size : Int),
      cmac impl key "AES" data iv padding_size
        = .error (.wrongCryptoMechanism "Wrong crypto mechanism: AES")) := by
  refine ⟨?_, ?_, ?_, ?_⟩
  · intro impl key crypto data iv padding_size
    constructor
    · intro hr
      by_contra hc
      apply cmac_supported_not_raises impl key crypto data iv padding_size _ hr
      by_cases h1 : crypto = "des"
      · exact Or.inl h1
      · by_cases h2 : crypto = "3des"
        · exact Or.inr (Or.inl h2)
        · by_cases h3 : crypto = "aes"
          · exact Or.inr (Or.inr h3)
          · exact absurd ⟨h1, h2, h3⟩ hc
    · rintro ⟨h1, h2, h3⟩
      exact ⟨_, cmac_unsupported impl key crypto data iv padding_size h1 h2 h3⟩
  · intro crypto h1 h2 h3 impl key data iv padding_size
    exact cmac_unsupported impl key crypto data iv padding_size h1 h2 h3
  · intro impl key data iv padding_size
    exact cmac_unsupported impl key "blowfish" data iv padding_size (by decide) (by decide)
      (by decide)
  · intro impl key data iv padding_size
    exact cmac_unsupported impl key "AES" data iv padding_size (by decide) (by decide) (by decide)

/-- C3, at the name `"rc4"` under the stand-in cipher. -/
theorem C3_unsupported_algorithm_witness :
    cmac xor_key_cipher [0xc0] "rc4" [1, 2, 3] [] 0
      = .error (.wrongCryptoMechanism ("Wrong crypto mechanism: " ++ "rc4")) :=
  C3_unsupported_algorithm.2.1 "rc4" (by decide) (by decide) (by decide) xor_key_cipher [0xc0]
    [1, 2, 3] [] 0

/-! ## C2: the tag is the last block -/

theorem ivCopyLoop_eq (iv : ByteVector) : ∀ (todo done old : ByteVector) (fuel : Nat),
    iv = done ++ todo → iv.length < 256 → todo.length ≤ old.length → todo.length < fuel →
    ivCopyLoop iv fuel done.length (done ++ old) = .ok (done ++ todo ++ old.drop todo.length) := by
  intro todo
  induction todo with
  | nil =>
    intro done old fuel hiv _ _ hf
    cases fuel with
    | zero => simp at hf
    | succ f =>
      have hlen : ¬ done.length < iv.length := by rw [hiv]; simp
      simp [ivCopyLoop, hlen]
  | cons t ts ih =>
    intro done old fuel hiv h256 hold hf
    cases fuel with
    | zero => simp at hf
    | succ f =>
      cases old with
      | nil => simp at hold
      | cons o os =>
        have hlen : done.length < iv.length := by rw [hiv]; simp
        have hr : rd iv done.length = .ok t := by rw [hiv]; exact rd_append_cons done t ts
        have hw : wr (done ++ o :: os) done.length t = .ok (done ++ t :: os) :=
          wr_append_cons done o os t
        have hnext : (done.length + 1) % 256 = (done ++ [t]).length := by
          rw [List.length_append, List.length_singleton]
          apply Nat.mod_eq_of_lt
          have : iv.length = done.length + (ts.length + 1) := by rw [hiv]; simp
          omega
        have h1 := ih (done ++ [t]) os f (by rw [hiv]; simp) h256
          (by simpa using hold) (by simpa using hf)
        unfold ivCopyLoop
        simp only [hlen, if_true, hr, hw, hnext]
        simpa using h1

/-- The IV block: the caller's bytes followed by zero bytes. -/
theorem build_lastiv_eq (block_size : Nat) (iv : ByteVector) (h : iv.length ≤ block_size)
    (h256 : iv.length < 256) :
    build_lastiv block_size iv = .ok (iv ++ List.replicate (block_size - iv.length) 0x00) := by
  unfold build_lastiv
  by_cases h0 : iv.length > 0
  · have h1 := ivCopyLoop_eq iv iv [] (List.replicate block_size 0x00) 257 (by simp) h256
      (by simpa using h) (by omega)
    simp only [h0, if_true]
    simpa using h1
  · have : iv = [] := List.length_eq_zero.mp (by omega)
    subst this
    simp

/-- With a length-preserving cipher, a block size of at least one byte and a
granularity that is a multiple of the block size and fits an `int`, the
low-level `cmac` returns at least one block. -/
theorem cmac_low_ok (impl : CipherImpl)
    (himpl : ∀ c src k v, ∃ out, impl c src k v = .ok out ∧ out.length = src.length)
    (key : ByteVector) (c : OpenSSLSymmetricCipher) (bs : Nat) (data lastIV : ByteVector)
    (g : Nat) (force : Bool) (hbs : 1 ≤ bs) (hg1 : 1 ≤ g) (hg2 : g < 2 ^ 31) (hdvd : bs ∣ g) :
    ∃ raw, cmac_low impl key c bs data lastIV g force = .ok raw ∧ bs ≤ raw.length := by
  obtain ⟨L, hL, hLlen⟩ := himpl (cipherK1K2 c) (List.replicate bs 0x00) (symkey c key)
    (.createNull c.family)
  have hLne : L ≠ [] := by
    intro h0; rw [h0] at hLlen; simp at hLlen; omega
  have hLbs : L.length = bs := by simpa using hLlen
  have hsub := subkeys_eq impl key c bs L hL hLne
  have hpad := pad_length_eq g data.length hg1 hg2
  generalize hp : (if data.length = 0 then g else (g - data.length % g) % g) = p at hpad
  have hplen := pad_data_length data p
  have hge : bs ≤ (pad_data data (p : Int)).length := by
    have hgle : bs ≤ g := Nat.le_of_dvd (by omega) hdvd
    rw [hplen]
    by_cases hn : data.length = 0
    · simp only [hn, if_true] at hp; omega
    · simp only [hn, if_false] at hp
      have hd := pad_formula_dvd g data.length hg1
      rw [hp] at hd
      have hpos : 0 < data.length + p := by omega
      exact le_trans hgle (Nat.le_of_dvd hpos hd)
  have hmask : ∃ m, mask_last_block (pad_data data (p : Int)) (subkey_of L (Rb bs))
      (subkey_of (subkey_of L (Rb bs)) (Rb bs)) (p : Int) force = .ok m ∧
      m.length = (pad_data data (p : Int)).length := by
    unfold mask_last_block
    split
    · refine ⟨_, xor_subkey_eq _ _ ?_, xor_last_length _ _ ?_⟩ <;>
        (rw [subkey_of_length]; omega)
    · refine ⟨_, xor_subkey_eq _ _ ?_, xor_last_length _ _ ?_⟩ <;>
        (rw [subkey_of_length, subkey_of_length]; omega)
  obtain ⟨m, hm, hmlen⟩ := hmask
  obtain ⟨out, hout, houtlen⟩ := himpl c m (symkey c key) (.createFromData c.family lastIV)
  refine ⟨out, ?_, by omega⟩
  simp only [cmac_low, hsub, hpad, hm, bind, Except.bind, run_cipher, hout]

/-- C2: for every key, every algorithm name among `"des"`, `"3des"`, `"aes"`,
every data, every IV of at most `block_size` bytes and a padding granularity
that is 0 or a positive multiple of `block_size` (an `int`), given a cipher
whose output is as long as its input, the high-level `cmac` returns exactly
`block_size` bytes, 8 for `"des"` and `"3des"` and 16 for `"aes"`, and they
are the last `block_size` bytes of the result of the low-level call. -/
theorem C2_tag_is_last_block (impl : CipherImpl) (key : ByteVector) (crypto : String)
    (data iv : ByteVector) (padding_size : Int)
    (hname : crypto = "des" ∨ crypto = "3des" ∨ crypto = "aes")
    (hiv : iv.length ≤ block_size_of crypto)
    (hpad : padding_size = 0 ∨
      (0 < padding_size ∧ padding_size < 2 ^ 31 ∧ (block_size_of crypto : Int) ∣ padding_size))
    (himpl : ∀ c src k v, ∃ out, impl c src k v = .ok out ∧ out.length = src.length) :
    ∃ (cipherMAC : OpenSSLSymmetricCipher) (lastiv raw tag : ByteVector),
      select_cipher crypto = .ok (cipherMAC, block_size_of crypto) ∧
      ((crypto = "des" ∨ crypto = "3des") → block_size_of crypto = 8) ∧
      (crypto = "aes" → block_size_of crypto = 16) ∧
      build_lastiv (block_size_of crypto) iv = .ok lastiv ∧
      cmac_low impl key cipherMAC (block_size_of crypto) data lastiv
        (toUInt32 (default_padding padding_size (block_size_of crypto))) = .ok raw ∧
      cmac impl key crypto data iv padding_size = .ok tag ∧
      tag.length = block_size_of crypto ∧
      block_size_of crypto ≤ raw.length ∧
      tag = raw.drop (raw.length - block_size_of crypto) := by
  have hbs : block_size_of crypto = 8 ∨ block_size_of crypto = 16 := by
    unfold block_size_of; split <;> simp
  have hsel : ∃ c, select_cipher crypto = .ok (c, block_size_of crypto) ∧
      ((crypto = "des" ∨ crypto = "3des") → block_size_of crypto = 8) ∧
      (crypto = "aes" → block_size_of crypto = 16) := by
    rcases hname with h | h | h
    · subst h
      exact ⟨{ family := .DES, mode := .ENC_MODE_CBC }, by decide, by decide, by decide⟩
    · subst h
      exact ⟨{ family := .DES, mode := .ENC_MODE_CBC }, by decide, by decide, by decide⟩
    · subst h
      exact ⟨{ family := .AES, mode := .ENC_MODE_CBC }, by decide, by decide, by decide⟩
  obtain ⟨c, hc, h8, h16⟩ := hsel
  generalize block_size_of crypto = bs at *
  have hbs1 : 1 ≤ bs := by omega
  have hlastiv := build_lastiv_eq bs iv hiv (by omega)
  have hg : ∃ g : Nat, toUInt32 (default_padding padding_size bs) = g ∧ 1 ≤ g ∧ g < 2 ^ 31 ∧
      bs ∣ g := by
    unfold default_padding toUInt32
    rcases hpad with h0 | ⟨hpos, hlt, hdvd⟩
    · refine ⟨bs, ?_, hbs1, by omega, dvd_refl _⟩
      simp only [h0, if_true]
      omega
    · have hne : padding_size ≠ 0 := by omega
      refine ⟨padding_size.toNat, ?_, by omega, by omega, ?_⟩
      · simp only [hne, if_false]
        omega
      · have hcast : ((padding_size.toNat : Nat) : Int) = padding_size := Int.toNat_of_nonneg (by omega)
        rw [← hcast] at hdvd
        exact_mod_cast hdvd
  obtain ⟨g, hgeq, hg1, hg2, hgd⟩ := hg
  obtain ⟨raw, hraw, hrawlen⟩ := cmac_low_ok impl himpl key c bs data
    (iv ++ List.replicate (bs - iv.length) 0x00) g false hbs1 hg1 hg2 hgd
  have htag : truncate_tag raw bs = raw.drop (raw.length - bs) := by
    unfold truncate_tag
    split
    · rfl
    · have : raw.length - bs = 0 := by omega
      rw [this, List.drop_zero]
  refine ⟨c, _, raw, raw.drop (raw.length - bs), hc, h8, h16, hlastiv, ?_, ?_, ?_, hrawlen, rfl⟩
  · rw [hgeq]; exact hraw
  · simp only [cmac, hc, hlastiv, bind, Except.bind, hgeq, hraw, pure, Except.pure, htag]
  · rw [List.length_drop]; omega

/-! ## C1: the high-level `cmac` against NIST SP 800-38B -/

theorem toBE_beValue : ∀ b : ByteVector, toBE b.length (beValue b) = b := by
  intro b
  induction b with
  | nil => rfl
  | cons a rest ih =>
    have hR := beValue_lt rest
    have hP : 0 < 256 ^ rest.length := pow_pos (by decide) _
    have hdiv : (a.val * 256 ^ rest.length + beValue rest) / 256 ^ rest.length = a.val := by
      rw [Nat.add_comm, Nat.add_mul_div_right _ _ hP, Nat.div_eq_of_lt hR, Nat.zero_add]
    have hmod : (a.val * 256 ^ rest.length + beValue rest) % 256 ^ rest.length = beValue rest := by
      rw [Nat.add_comm, Nat.add_mul_mod_self_right, Nat.mod_eq_of_lt hR]
    have ha : (Fin.ofNat (a.val % 256) : Byte) = a := by
      apply Fin.ext
      show a.val % 256 % 256 = a.val
      have := a.isLt
      omega
    simp only [List.length_cons, toBE, beValue, hdiv, hmod, ih, ha]

theorem msb_clear_iff (a : Byte) (rest : ByteVector) :
    beValue (a :: rest) < 2 ^ (8 * (a :: rest).length - 1) ↔ a.val < 128 := by
  have hR := beValue_lt rest
  have hpow : 2 ^ (8 * (a :: rest).length - 1) = 128 * 256 ^ rest.length := by
    have : 8 * (a :: rest).length - 1 = 7 + 8 * rest.length := by
      simp only [List.length_cons]; omega
    rw [this, pow_add, pow_mul]
    norm_num
  rw [hpow, beValue]
  generalize 256 ^ rest.length = P at hR ⊢
  generalize beValue rest = R at hR ⊢
  constructor
  · intro h
    by_contra hc
    have h1 : 128 * P ≤ a.val * P := Nat.mul_le_mul_right P (by omega)
    omega
  · intro h
    have h1 : a.val * P ≤ 127 * P := Nat.mul_le_mul_right P (by omega)
    omega

theorem xor_bytes_replicate_zero (front : ByteVector) :
    xor_bytes front (List.replicate front.length 0x00) = front := by
  induction front with
  | nil => rfl
  | cons a rest ih =>
    simp only [xor_bytes] at ih
    simp only [xor_bytes, List.length_cons, List.replicate_succ, List.zipWith_cons_cons,
      byte_xor_zero, ih]

/-- The doubling step of the code is the doubling of NIST SP 800-38B, for the
feedback constant of the block length. -/
theorem subkey_of_eq_nist_double (L : ByteVector) (h : L ≠ []) :
    subkey_of L (if L.length = 16 then 0x87 else 0x1b) = nist_double L := by
  cases L with
  | nil => exact absurd rfl h
  | cons a rest =>
    obtain ⟨front, l, _, h2, h3⟩ := shift_loop_split rest a
    have h0 : shifted (0x00 : Byte) a rest = front ++ [l <<< 1] := by
      rw [h3, byte_xor_zero]
    have hbe : toBE (a :: rest).length ((2 * beValue (a :: rest)) % 2 ^ (8 * (a :: rest).length))
        = front ++ [l <<< 1] := by
      rw [← beValue_shifted_mod, ← h0]
      have hl : (a :: rest).length = (shifted (0x00 : Byte) a rest).length := by
        rw [shifted_length]; rfl
      rw [hl]
      exact toBE_beValue _
    unfold nist_double
    simp only [hbe, msb_clear_iff, subkey_of]
    by_cases ha : a.val < 128
    · have hb := (top_bit_clear_iff a).mpr ha
      simp only [ha, hb, if_true, h0]
    · have hb : ¬ (a &&& (0x80 : Byte) = (0x00 : Byte)) := fun hc =>
        ha ((top_bit_clear_iff a).mp hc)
      simp only [ha, hb, if_false, h3, nist_Rb]
      have hlen : (a :: rest).length - 1 = front.length := by
        simp only [List.length_cons]; omega
      rw [hlen]
      unfold xor_bytes
      rw [List.zipWith_append _ _ _ _ _ (by simp)]
      have hz := xor_bytes_replicate_zero front
      unfold xor_bytes at hz
      rw [hz]
      rfl

theorem blocksAux_nil (bs fuel : Nat) : blocksAux bs fuel [] = [] := by
  cases fuel with
  | zero => rfl
  | succ f => simp [blocksAux]

theorem blocksAux_fuel (bs : Nat) (hbs : 1 ≤ bs) : ∀ (fuel fuel' : Nat) (v : ByteVector),
    v.length ≤ fuel → v.length ≤ fuel' → blocksAux bs fuel v = blocksAux bs fuel' v := by
  intro fuel
  induction fuel with
  | zero =>
    intro fuel' v h _
    have : v = [] := List.length_eq_zero.mp (by omega)
    subst this
    rw [blocksAux_nil, blocksAux_nil]
  | succ f ih =>
    intro fuel' v h h'
    cases fuel' with
    | zero =>
      have : v = [] := List.length_eq_zero.mp (by omega)
      subst this
      rw [blocksAux_nil, blocksAux_nil]
    | succ f' =>
      unfold blocksAux
      by_cases hv : v = []
      · simp only [hv, if_true]
      · simp only [hv, if_false]
        have hd : (v.drop bs).length = v.length - bs := List.length_drop _ _
        rw [ih f' (v.drop bs) (by omega) (by omega)]

theorem blocks_block_append (bs : Nat) (hbs : 1 ≤ bs) (b w : ByteVector) (hb : b.length = bs) :
    blocks bs (b ++ w) = b :: blocks bs w := by
  have hne : b ++ w ≠ [] := by
    intro h0
    have : (b ++ w).length = 0 := by rw [h0]; rfl
    rw [List.length_append] at this
    omega
  have hlen : (b ++ w).length = (bs + w.length - 1) + 1 := by
    rw [List.length_append]; omega
  have hstep : ∀ (f : Nat) (v : ByteVector), blocksAux bs (f + 1) v
      = if v = [] then [] else v.take bs :: blocksAux bs f (v.drop bs) := fun _ _ => rfl
  show blocksAux bs (b ++ w).length (b ++ w) = b :: blocksAux bs w.length w
  rw [hlen, hstep]
  simp only [hne, if_false, List.take_left' hb, List.drop_left' hb]
  rw [blocksAux_fuel bs hbs (bs + w.length - 1) w.length w (by omega) (le_refl _)]

theorem blocks_single (bs : Nat) (hbs : 1 ≤ bs) (w : ByteVector) (hw : w.length = bs) :
    blocks bs w = [w] := by
  have h := blocks_block_append bs hbs w [] hw
  rw [List.append_nil] at h
  rw [h]
  rfl

theorem blocks_append_last (bs : Nat) (hbs : 1 ≤ bs) : ∀ (q : Nat) (u x : ByteVector),
    u.length = q * bs → x.length = bs → blocks bs (u ++ x) = blocks bs u ++ [x] := by
  intro q
  induction q with
  | zero =>
    intro u x hu hx
    have : u = [] := List.length_eq_zero.mp (by omega)
    subst this
    rw [List.nil_append, blocks_single bs hbs x hx]
    rfl
  | succ q ih =>
    intro u x hu hx
    have hsplit : u = u.take bs ++ u.drop bs := (List.take_append_drop bs u).symm
    have hmul : (q + 1) * bs = q * bs + bs := Nat.succ_mul q bs
    have ht : (u.take bs).length = bs := by rw [List.length_take]; omega
    have hd : (u.drop bs).length = q * bs := by rw [List.length_drop]; omega
    rw [hsplit, List.append_assoc, blocks_block_append bs hbs _ _ ht,
      blocks_block_append bs hbs _ _ ht, ih (u.drop bs) x hd hx]
    rfl

theorem blocks_full (bs : Nat) (hbs : 1 ≤ bs) : ∀ (q : Nat) (u : ByteVector),
    u.length = q * bs → ∀ m ∈ blocks bs u, m.length = bs := by
  intro q
  induction q with
  | zero =>
    intro u hu m hm
    have : u = [] := List.length_eq_zero.mp (by omega)
    subst this
    simp [blocks, blocksAux] at hm
  | succ q ih =>
    intro u hu m hm
    have hsplit : u = u.take bs ++ u.drop bs := (List.take_append_drop bs u).symm
    have hmul : (q + 1) * bs = q * bs + bs := Nat.succ_mul q bs
    have ht : (u.take bs).length = bs := by rw [List.length_take]; omega
    have hd : (u.drop bs).length = q * bs := by rw [List.length_drop]; omega
    rw [hsplit, blocks_block_append bs hbs _ _ ht] at hm
    rcases List.mem_cons.mp hm with h | h
    · rw [h]; exact ht
    · exact ih (u.drop bs) hd m h

theorem cbc_chain_append (E : ByteVector → ByteVector) : ∀ (init : List ByteVector)
    (prev x : ByteVector),
    cbc_chain E prev (init ++ [x])
      = cbc_chain E prev init
        ++ [E (xor_bytes x (init.foldl (fun C M => E (xor_bytes M C)) prev))] := by
  intro init
  induction init with
  | nil => intro prev x; rfl
  | cons m ms ih =>
    intro prev x
    show E (xor_bytes m prev) :: cbc_chain E (E (xor_bytes m prev)) (ms ++ [x]) = _
    rw [ih]
    rfl

theorem xor_bytes_length (a b : ByteVector) (ha : a.length = b.length) :
    (xor_bytes a b).length = b.length := by
  simp [xor_bytes, ha]

theorem chain_state_length (E : ByteVector → ByteVector) (bs : Nat)
    (hE : ∀ x : ByteVector, x.length = bs → (E x).length = bs) :
    ∀ (bl : List ByteVector) (prev : ByteVector), prev.length = bs →
      (∀ m ∈ bl, m.length = bs) →
      (bl.foldl (fun C M => E (xor_bytes M C)) prev).length = bs := by
  intro bl
  induction bl with
  | nil => intro prev hp _; exact hp
  | cons m ms ih =>
    intro prev hp hall
    rw [List.foldl_cons]
    apply ih
    · apply hE
      rw [xor_bytes_length _ _ (by rw [hall m (List.mem_cons_self _ _), hp]), hp]
    · intro m' hm'
      exact hall m' (List.mem_cons_of_mem _ hm')

/-- The last `bs` bytes of a buffer that ends with a block of `bs` bytes. -/
theorem truncate_tag_append (A T : ByteVector) (bs : Nat) (hT : T.length = bs) :
    truncate_tag (A ++ T) bs = T := by
  unfold truncate_tag
  split
  · apply List.drop_left'
    rw [List.length_append]; omega
  · next h =>
    have : A = [] := List.length_eq_zero.mp (by rw [List.length_append] at h; omega)
    rw [this, List.nil_append]

/-- The arithmetic that links the pad length of the code with the number of
blocks of NIST SP 800-38B, for the block sizes 8 and 16. -/
theorem pad_arith (bs n q p : Nat) (hbs : bs = 8 ∨ bs = 16)
    (hq : q = (if n = 0 then 1 else (n + bs - 1) / bs) - 1)
    (hp : p = (if n = 0 then bs else (bs - n % bs) % bs)) :
    q * bs ≤ n ∧ n - q * bs ≤ bs ∧ (n - q * bs = bs ↔ p = 0) ∧
    (p ≠ 0 → p - 1 = bs - (n - q * bs) - 1) := by
  by_cases hn : n = 0
  · simp only [hn, if_true] at hq hp
    rcases hbs with rfl | rfl <;> omega
  · simp only [hn, if_false] at hq hp
    rcases hbs with rfl | rfl <;> omega

/-- The padded buffer of the code is the complete blocks of the message
followed by one block: the last block of the message if it is complete, and
the padded rest otherwise. -/
theorem padded_split (bs : Nat) (hbs : bs = 8 ∨ bs = 16) (data : ByteVector) (q p : Nat)
    (hq : q = (if data.length = 0 then 1 else (data.length + bs - 1) / bs) - 1)
    (hp : p = (if data.length = 0 then bs else (bs - data.length % bs) % bs)) :
    (data.take (q * bs)).length = q * bs ∧
    ((data.drop (q * bs)).length = bs ↔ p = 0) ∧
    (if (data.drop (q * bs)).length = bs then data.drop (q * bs)
      else data.drop (q * bs)
        ++ 0x80 :: List.replicate (bs - (data.drop (q * bs)).length - 1) 0x00).length = bs ∧
    pad_data data (p : Int)
      = data.take (q * bs) ++
        (if (data.drop (q * bs)).length = bs then data.drop (q * bs)
          else data.drop (q * bs)
            ++ 0x80 :: List.replicate (bs - (data.drop (q * bs)).length - 1) 0x00) := by
  obtain ⟨a1, a2, a3, a4⟩ := pad_arith bs data.length q p hbs hq hp
  have hdrop : (data.drop (q * bs)).length = data.length - q * bs := List.length_drop _ _
  have hdata : data.take (q * bs) ++ data.drop (q * bs) = data := List.take_append_drop _ _
  rw [hdrop]
  refine ⟨?_, a3, ?_, ?_⟩
  · rw [List.length_take]; omega
  · by_cases h : data.length - q * bs = bs
    · simp only [h, if_true, hdrop]
    · simp only [h, if_false, List.length_append, List.length_cons, List.length_replicate,
        hdrop]
      omega
  · rw [pad_data_eq]
    by_cases h0 : p = 0
    · have h1 : data.length - q * bs = bs := a3.mpr h0
      simp only [h0, if_true, h1, hdata]
    · have h1 : ¬ data.length - q * bs = bs := fun h => h0 (a3.mp h)
      simp only [h0, if_false, h1, ← a4 h0]
      rw [← List.append_assoc, hdata]

/-- The refinement at the level of the low-level entry point: called as the
high-level entry point calls it for an empty IV and granularity 0, it returns
a buffer whose last block is the tag of NIST SP 800-38B. -/
theorem cmac_low_refines_nist (E : CipherFamily → ByteVector → ByteVector → ByteVector)
    (fam : CipherFamily) (bs : Nat) (hfam : family_block_size fam = bs) (key data : ByteVector)
    (hE : ∀ x : ByteVector, x.length = bs → (E fam key x).length = bs) :
    ∃ raw, cmac_low (block_cipher E) key { family := fam, mode := .ENC_MODE_CBC } bs data
        (List.replicate bs 0x00) bs = .ok raw ∧
      truncate_tag raw bs = nist_cmac (E fam key) bs data := by
  have hbs : bs = 8 ∨ bs = 16 := by
    cases fam <;> simp [family_block_size] at hfam <;> omega
  have hbs1 : 1 ≤ bs := by omega
  have hzlen : (List.replicate bs (0x00 : Byte)).length = bs := List.length_replicate _ _
  -- the subkeys
  have hLlen : (E fam key (List.replicate bs 0x00)).length = bs := hE _ hzlen
  have hLne : E fam key (List.replicate bs 0x00) ≠ [] := by
    intro h0; rw [h0] at hLlen; simp at hLlen; omega
  have hecb : block_cipher E (cipherK1K2 { family := fam, mode := .ENC_MODE_CBC })
      (List.replicate bs 0x00) (symkey { family := fam, mode := .ENC_MODE_CBC } key)
      (.createNull fam) = .ok (E fam key (List.replicate bs 0x00)) := by
    cases fam <;>
      simp [block_cipher, cipherK1K2, symkey, hfam, blocks_single bs hbs1 _ hzlen]
  have hsub := subkeys_eq (block_cipher E) key { family := fam, mode := .ENC_MODE_CBC } bs _
    hecb hLne
  have hRb : ∀ K : ByteVector, K.length = bs → Rb bs = (if K.length = 16 then 0x87 else 0x1b) := by
    intro K hK
    rw [hK]
    rcases hbs with rfl | rfl <;> rfl
  have hK1 : subkey_of (E fam key (List.replicate bs 0x00)) (Rb bs)
      = nist_double (E fam key (List.replicate bs 0x00)) := by
    rw [hRb _ hLlen]; exact subkey_of_eq_nist_double _ hLne
  have hK1len : (nist_double (E fam key (List.replicate bs 0x00))).length = bs := by
    rw [← hK1, subkey_of_length]; exact hLlen
  have hK1ne : nist_double (E fam key (List.replicate bs 0x00)) ≠ [] := by
    intro h0; rw [h0] at hK1len; simp at hK1len; omega
  have hK2 : subkey_of (nist_double (E fam key (List.replicate bs 0x00))) (Rb bs)
      = nist_double (nist_double (E fam key (List.replicate bs 0x00))) := by
    rw [hRb _ hK1len]; exact subkey_of_eq_nist_double _ hK1ne
  have hK2len : (nist_double (nist_double (E fam key (List.replicate bs 0x00)))).length = bs := by
    rw [← hK2, subkey_of_length]; exact hK1len
  rw [hK1, hK2] at hsub
  -- the padding
  have hpad := pad_length_eq bs data.length hbs1 (by omega)
  obtain ⟨hulen, hiff, hXlen, hsplit⟩ := padded_split bs hbs data _ _ rfl rfl
  simp only [nist_cmac]
  generalize nist_double (E fam key (List.replicate bs 0x00)) = K1 at hsub hK1len hK2len ⊢
  generalize nist_double K1 = K2 at hsub hK2len ⊢
  generalize (if data.length = 0 then bs else (bs - data.length % bs) % bs) = p
    at hpad hiff hsplit
  generalize (if data.length = 0 then 1 else (data.length + bs - 1) / bs) - 1 = q
    at hulen hiff hXlen hsplit ⊢
  generalize hu : data.take (q * bs) = u at hulen hsplit ⊢
  generalize hMs : data.drop (q * bs) = Ms at hiff hXlen hsplit ⊢
  -- the subkey XOR
  have hmask : mask_last_block (pad_data data (p : Int)) K1 K2 (p : Int) false
      = .ok (u ++ (if Ms.length = bs then xor_bytes Ms K1
          else xor_bytes (Ms ++ 0x80 :: List.replicate (bs - Ms.length - 1) 0x00) K2)) := by
    have hxor : ∀ (X K : ByteVector), X.length = bs → K.length = bs →
        xor_subkey (u ++ X) K = .ok (u ++ xor_bytes X K) := by
      intro X K hX hK
      rw [xor_subkey_eq _ _ (by rw [List.length_append]; omega)]
      have hl : (u ++ X).length - K.length = u.length := by rw [List.length_append]; omega
      simp only [xor_last, hl, List.take_left, List.drop_left, xor_bytes]
    rw [hsplit]
    unfold mask_last_block
    by_cases h0 : p = 0
    · have h1 := hiff.mpr h0
      have h2 : (p : Int) = 0 ∧ false = false := ⟨by exact_mod_cast h0, rfl⟩
      rw [if_pos h2, if_pos h1, if_pos h1]
      exact hxor Ms K1 h1 hK1len
    · have h1 : ¬ Ms.length = bs := fun h => h0 (hiff.mp h)
      have h2 : ¬ ((p : Int) = 0 ∧ false = false) := by
        intro h; exact h0 (by exact_mod_cast h.1)
      rw [if_neg h1] at hXlen
      rw [if_neg h2, if_neg h1, if_neg h1]
      exact hxor _ K2 hXlen hK2len
  generalize hMn : (if Ms.length = bs then xor_bytes Ms K1
      else xor_bytes (Ms ++ 0x80 :: List.replicate (bs - Ms.length - 1) 0x00) K2) = Mn
    at hmask ⊢
  have hMnlen : Mn.length = bs := by
    rw [← hMn]
    by_cases h : Ms.length = bs
    · simp only [h, if_true]
      rw [xor_bytes_length _ _ (by rw [h, hK1len]), hK1len]
    · simp only [h, if_false] at hXlen ⊢
      rw [xor_bytes_length _ _ (by rw [hXlen, hK2len]), hK2len]
  -- the chained encryption
  have hcbc : block_cipher E { family := fam, mode := .ENC_MODE_CBC } (u ++ Mn)
      (symkey { family := fam, mode := .ENC_MODE_CBC } key)
      (.createFromData fam (List.replicate bs 0x00))
      = .ok ((cbc_chain (E fam key) (List.replicate bs 0x00) (blocks bs u)).flatten
          ++ E fam key (xor_bytes Mn
              ((blocks bs u).foldl (fun C M => E fam key (xor_bytes M C))
                (List.replicate bs 0x00)))) := by
    have hb := blocks_append_last bs hbs1 q u Mn hulen hMnlen
    cases fam <;>
      simp [block_cipher, symkey, iv_bytes, hfam, hb, cbc_chain_append]
  have hTlen : (E fam key (xor_bytes Mn
      ((blocks bs u).foldl (fun C M => E fam key (xor_bytes M C))
        (List.replicate bs 0x00)))).length = bs := by
    apply hE
    have hC := chain_state_length (E fam key) bs hE (blocks bs u) (List.replicate bs 0x00) hzlen
      (blocks_full bs hbs1 q u hulen)
    rw [xor_bytes_length _ _ (by rw [hMnlen, hC]), hC]
  rw [List.foldl_append, List.foldl_cons, List.foldl_nil]
  refine ⟨_, ?_, truncate_tag_append
    (cbc_chain (E fam key) (List.replicate bs 0x00) (blocks bs u)).flatten _ bs hTlen⟩
  simp only [cmac_low, hsub, hpad, hmask, bind, Except.bind, run_cipher, hcbc]

/-- C1: for every key, every message and each of the names `"des"`, `"3des"`,
`"aes"`, with the default (empty) IV and padding granularity 0 and with the
cipher given by a block function `E` per family and key (one ECB block is `E`
of the block, CBC is the chain `c_i = E (m_i xor c_(i-1))` from the IV), the
high-level `cmac` returns the CMAC tag of NIST SP 800-38B for `E`: the message
split into blocks, the last block XORed with `K1` if complete and otherwise
padded with `0x80 00..00` and XORed with `K2`, the chain from the zero IV, and
its last block. -/
theorem C1_cmac_refines_nist (E : CipherFamily → ByteVector → ByteVector → ByteVector)
    (key data : ByteVector) (crypto : String)
    (hname : crypto = "des" ∨ crypto = "3des" ∨ crypto = "aes")
    (hE : ∀ x : ByteVector, x.length = block_size_of crypto →
      (E (family_of crypto) key x).length = block_size_of crypto) :
    cmac (block_cipher E) key crypto data
      = .ok (nist_cmac (E (family_of crypto) key) (block_size_of crypto) data) := by
  have hsel : select_cipher crypto
      = .ok ({ family := family_of crypto, mode := .ENC_MODE_CBC }, block_size_of crypto) ∧
      family_block_size (family_of crypto) = block_size_of crypto := by
    rcases hname with h | h | h <;> subst h <;> exact ⟨by decide, by decide⟩
  obtain ⟨hs, hfam⟩ := hsel
  generalize block_size_of crypto = bs at hs hfam hE ⊢
  generalize family_of crypto = fam at hs hfam hE ⊢
  have hbs : bs = 8 ∨ bs = 16 := by
    cases fam <;> simp [family_block_size] at hfam <;> omega
  obtain ⟨raw, hraw, htag⟩ := cmac_low_refines_nist E fam bs hfam key data hE
  have hiv : build_lastiv bs [] = .ok (List.replicate bs 0x00) := by
    simp [build_lastiv]
  have hg : toUInt32 (default_padding 0 bs) = bs := by
    unfold toUInt32 default_padding
    simp only [if_true]
    omega
  simp only [cmac, hs, hiv, hg, hraw, htag, bind, Except.bind, pure, Except.pure]

/-- C1, for `"des"` and the message `[1, 2, 3]` under the stand-in block
function with key `[0xc3]`. -/
theorem C1_cmac_refines_nist_witness :
    cmac (block_cipher toy_block) [0xc3] "des" [1, 2, 3]
      = .ok (nist_cmac (toy_block (family_of "des") [0xc3]) (block_size_of "des") [1, 2, 3]) :=
  C1_cmac_refines_nist toy_block [0xc3] [1, 2, 3] "des" (by decide)
    (fun x hx => by simp only [toy_block, List.length_reverse, List.length_map, hx])

/-- C2, for `"des"`, an IV of two bytes and granularity 16 under the stand-in
cipher. -/
theorem C2_tag_is_last_block_witness :
    ∃ (cipherMAC : OpenSSLSymmetricCipher) (lastiv raw tag : ByteVector),
      select_cipher "des" = .ok (cipherMAC, block_size_of "des") ∧
      (("des" = "des" ∨ "des" = "3des") → block_size_of "des" = 8) ∧
      ("des" = "aes" → block_size_of "des" = 16) ∧
      build_lastiv (block_size_of "des") [9, 9] = .ok lastiv ∧
      cmac_low xor_key_cipher [0xc0] cipherMAC (block_size_of "des") [1, 2, 3] lastiv
        (toUInt32 (default_padding 16 (block_size_of "des"))) = .ok raw ∧
      cmac xor_key_cipher [0xc0] "des" [1, 2, 3] [9, 9] 16 = .ok tag ∧
      tag.length = block_size_of "des" ∧
      block_size_of "des" ≤ raw.length ∧
      tag = raw.drop (raw.length - block_size_of "des") :=
  C2_tag_is_last_block xor_key_cipher [0xc0] "des" [1, 2, 3] [9, 9] 16 (by decide) (by decide)
    (Or.inr ⟨by decide, by decide, ⟨2, by decide⟩⟩)
    (fun _ src _ _ => ⟨_, rfl, by simp⟩)

/-! ## C20: two messages with the same result under `forceK2Use` -/

/-- C20: with `forceK2Use = true` and `block_size = padding_size = 16` the
empty message and the 16-byte message `0x80 00..00` are different messages
that the low-level `cmac` maps to the same result, for every key, cipher,
delegate and IV: both are padded to the buffer `0x80 00..00` (pad 16 for the
first, pad 0 for the second) and both are masked with `K2`. -/
theorem C20_forceK2Use_collision :
    ([] : ByteVector) ≠ 0x80 :: List.replicate 15 0x00 ∧
    (∀ (impl : CipherImpl) (key : ByteVector) (cipherMAC : OpenSSLSymmetricCipher)
        (lastIV : ByteVector),
      cmac_low impl key cipherMAC 16 [] lastIV 16 true
        = cmac_low impl key cipherMAC 16 (0x80 :: List.replicate 15 0x00) lastIV 16 true) ∧
    pad_length 16 ([] : ByteVector).length = .ok 16 ∧
    pad_length 16 ((0x80 : Byte) :: List.replicate 15 0x00).length = .ok 0 ∧
    pad_data [] 16 = 0x80 :: List.replicate 15 0x00 ∧
    pad_data (0x80 :: List.replicate 15 0x00) 0 = 0x80 :: List.replicate 15 0x00 ∧
    (∀ padded K1 K2, mask_last_block padded K1 K2 16 true = xor_subkey padded K2) ∧
    (∀ padded K1 K2, mask_last_block padded K1 K2 0 true = xor_subkey padded K2) := by
  have h1 : pad_length 16 ([] : ByteVector).length = .ok 16 := by decide
  have h2 : pad_length 16 ((0x80 : Byte) :: List.replicate 15 0x00).length = .ok 0 := by decide
  have h3 : pad_data [] 16 = 0x80 :: List.replicate 15 0x00 := by decide
  have h4 : pad_data (0x80 :: List.replicate 15 0x00) 0 = 0x80 :: List.replicate 15 0x00 := by
    decide
  refine ⟨by decide, ?_, h1, h2, h3, h4, fun _ _ _ => rfl, fun _ _ _ => rfl⟩
  intro impl key cipherMAC lastIV
  simp only [cmac_low, h1, h2, h3, h4, mask_last_block, bind, Except.bind]
  cases subkeys impl key cipherMAC 16 with
  | error e => rfl
  | ok ks => rfl

/-- C20, under the stand-in cipher with key `[0xc0]`, an AES delegate and the
zero IV. -/
theorem C20_forceK2Use_collision_witness :
    cmac_low xor_key_cipher [0xc0] { family := .AES, mode := .ENC_MODE_CBC } 16 []
        (List.replicate 16 0x00) 16 true
      = cmac_low xor_key_cipher [0xc0] { family := .AES, mode := .ENC_MODE_CBC } 16
        (0x80 :: List.replicate 15 0x00) (List.replicate 16 0x00) 16 true :=
  C20_forceK2Use_collision.2.1 xor_key_cipher [0xc0] { family := .AES, mode := .ENC_MODE_CBC }
    (List.replicate 16 0x00)

/-! ## C12, C13, C14, C15: the parameters of the two entry points -/

/-- The table of lines 25-41, read backwards: a name that is accepted gives one
of two rows. -/
theorem select_cipher_table (crypto : String) (c : OpenSSLSymmetricCipher) (bs : Nat)
    (h : select_cipher crypto = .ok (c, bs)) :
    (c = { family := .DES, mode := .ENC_MODE_CBC } ∧ bs = 8 ∧
      (crypto = "des" ∨ crypto = "3des")) ∨
    (c = { family := .AES, mode := .ENC_MODE_CBC } ∧ bs = 16 ∧ crypto = "aes") := by
  unfold select_cipher at h
  split at h
  · next hd =>
    simp only [Except.ok.injEq, Prod.mk.injEq] at h
    exact Or.inl ⟨h.1.symm, h.2.symm, hd⟩
  · split at h
    · next ha =>
      simp only [Except.ok.injEq, Prod.mk.injEq] at h
      exact Or.inr ⟨h.1.symm, h.2.symm, ha⟩
    · cases h

/-- The high-level entry point as the low-level call it makes. -/
theorem cmac_as_low_call (impl : CipherImpl) (key : ByteVector) (crypto : String)
    (data iv : ByteVector) (padding_size : Int) (c : OpenSSLSymmetricCipher) (bs : Nat)
    (h : select_cipher crypto = .ok (c, bs)) :
    cmac impl key crypto data iv padding_size
      = (build_lastiv bs iv >>= fun lastiv =>
          cmac_low impl key c bs data lastiv (toUInt32 (default_padding padding_size bs))
            >>= fun r => pure (truncate_tag r bs)) := by
  simp only [cmac, h, bind, Except.bind]

/-- C12 as stated fails: a DES-family delegate does not yield `0x1b` for every
`block_size`.  Under the stand-in cipher with key `[0xc0]`, a DES delegate with
`block_size = 16` derives its subkeys with `0x87` (`K1` ends in
`0x07 = 0x80 xor 0x87`), not with `0x1b` (which would end `K1` in `0x9b`). -/
theorem C12_Rb_counterexample :
    subkeys xor_key_cipher [0xc0] { family := .DES, mode := .ENC_MODE_CBC } 16
      = .ok ([129, 129, 129, 129, 129, 129, 129, 129, 129, 129, 129, 129, 129, 129, 129, 0x07],
          [3, 3, 3, 3, 3, 3, 3, 3, 3, 3, 3, 3, 3, 3, 2, 137]) ∧
    subkeys xor_key_cipher [0xc0] { family := .DES, mode := .ENC_MODE_CBC } 16
      = (next_subkey (List.replicate 16 0xc0) 0x87 >>= fun K1 =>
          next_subkey K1 0x87 >>= fun K2 => pure (K1, K2)) ∧
    subkeys xor_key_cipher [0xc0] { family := .DES, mode := .ENC_MODE_CBC } 16
      ≠ (next_subkey (List.replicate 16 0xc0) 0x1b >>= fun K1 =>
          next_subkey K1 0x1b >>= fun K2 => pure (K1, K2)) ∧
    next_subkey (List.replicate 16 0xc0) 0x1b
      = .ok [129, 129, 129, 129, 129, 129, 129, 129, 129, 129, 129, 129, 129, 129, 129, 0x9b] := by
  decide

/-- C12, amended: in the low-level `cmac` the ECB delegate, the key and the
null IV follow the family of the MAC delegate, and the feedback constant
follows the `block_size` argument alone: `0x1b` when `block_size = 8` and
`0x87` for every other value, for either family.  So a DES-family delegate
gets `0x1b` and an AES-family delegate gets `0x87` when `block_size` is the
block size of the family, 8 for DES and 16 for AES. -/
theorem C12_Rb_follows_block_size :
    (∀ (impl : CipherImpl) (key : ByteVector) (cipherMAC : OpenSSLSymmetricCipher)
        (block_size : Nat),
      subkeys impl key cipherMAC block_size
        = (run_cipher impl { family := cipherMAC.family, mode := .ENC_MODE_ECB }
            (List.replicate block_size 0x00) { family := cipherMAC.family, data := key }
            (.createNull cipherMAC.family) >>= fun L =>
          next_subkey L (if block_size = 8 then 0x1b else 0x87) >>= fun K1 =>
          next_subkey K1 (if block_size = 8 then 0x1b else 0x87) >>= fun K2 =>
          pure (K1, K2))) ∧
    (∀ block_size : Nat, Rb block_size = if block_size = 8 then 0x1b else 0x87) ∧
    (∀ (family : CipherFamily) (block_size : Nat), family_block_size family = block_size →
      Rb block_size = match family with
        | .DES => 0x1b
        | .AES => 0x87) := by
  refine ⟨?_, fun _ => rfl, ?_⟩
  · intro impl key cipherMAC block_size
    obtain ⟨family, mode⟩ := cipherMAC
    cases family <;> rfl
  · intro family block_size h
    cases family <;> simp only [family_block_size] at h <;> subst h <;> rfl

/-- C12, for the AES family with its block size 16. -/
theorem C12_Rb_follows_block_size_witness :
    Rb 16 = match CipherFamily.AES with
      | .DES => 0x1b
      | .AES => 0x87 :=
  C12_Rb_follows_block_size.2.2 .AES 16 rfl

/-- C13 as stated fails: the low-level `cmac` has no default for the
granularity.  Under the stand-in cipher, for an AES delegate, `block_size = 16`
and the empty message, granularity 0 ends in the modulo by zero of line 132,
and granularity 16 returns a block. -/
theorem C13_low_level_granularity_zero_counterexample :
    cmac_low xor_key_cipher [0xc0] { family := .AES, mode := .ENC_MODE_CBC } 16 []
        (List.replicate 16 0x00) 0
      = .error .divisionByZero ∧
    cmac_low xor_key_cipher [0xc0] { family := .AES, mode := .ENC_MODE_CBC } 16 []
        (List.replicate 16 0x00) 16
      = .ok [67, 195, 195, 195, 195, 195, 195, 195, 195, 195, 195, 195, 195, 195, 194, 73] ∧
    cmac_low xor_key_cipher [0xc0] { family := .AES, mode := .ENC_MODE_CBC } 16 []
        (List.replicate 16 0x00) 0
      ≠ cmac_low xor_key_cipher [0xc0] { family := .AES, mode := .ENC_MODE_CBC } 16 []
        (List.replicate 16 0x00) 16 := by
  decide

/-- C13, amended: the default is applied by the high-level `cmac`.  For every
input it returns with padding granularity 0 the same result as with padding
granularity `block_size`, and the granularity the low-level call receives is
`block_size` in both cases.  The low-level `cmac` itself applies no default:
with granularity 0 it returns no result. -/
theorem C13_granularity_default_in_high_level :
    (∀ (impl : CipherImpl) (key : ByteVector) (crypto : String) (data iv : ByteVector),
      cmac impl key crypto data iv 0 = cmac impl key crypto data iv (block_size_of crypto)) ∧
    (∀ (crypto : String) (c : OpenSSLSymmetricCipher) (bs : Nat),
      select_cipher crypto = .ok (c, bs) →
        bs = block_size_of crypto ∧ toUInt32 (default_padding 0 bs) = bs ∧
        toUInt32 (default_padding (block_size_of crypto) bs) = bs) ∧
    (∀ (impl : CipherImpl) (key : ByteVector) (cipherMAC : OpenSSLSymmetricCipher)
        (block_size : Nat) (data lastIV : ByteVector) (forceK2Use : Bool),
      ∃ e, cmac_low impl key cipherMAC block_size data lastIV 0 forceK2Use = .error e) := by
  have htab : ∀ (crypto : String) (c : OpenSSLSymmetricCipher) (bs : Nat),
      select_cipher crypto = .ok (c, bs) →
        bs = block_size_of crypto ∧ toUInt32 (default_padding 0 bs) = bs ∧
        toUInt32 (default_padding (block_size_of crypto) bs) = bs := by
    intro crypto c bs h
    rcases select_cipher_table crypto c bs h with ⟨_, hb, hn⟩ | ⟨_, hb, hn⟩
    · subst hb
      rcases hn with hn | hn <;> subst hn <;> decide
    · subst hb; subst hn; decide
  refine ⟨?_, htab, ?_⟩
  · intro impl key crypto data iv
    cases h : select_cipher crypto with
    | error e => simp only [cmac, h, bind, Except.bind]
    | ok p =>
      obtain ⟨c, bs⟩ := p
      obtain ⟨_, h0, h1⟩ := htab crypto c bs h
      rw [cmac_as_low_call impl key crypto data iv 0 c bs h,
        cmac_as_low_call impl key crypto data iv (block_size_of crypto) c bs h, h0, h1]
  · intro impl key cipherMAC block_size data lastIV forceK2Use
    unfold cmac_low
    cases subkeys impl key cipherMAC block_size with
    | error e => exact ⟨e, rfl⟩
    | ok ks => exact ⟨.divisionByZero, rfl⟩

/-- C13, for `"aes"` under the stand-in cipher. -/
theorem C13_granularity_default_in_high_level_witness :
    cmac xor_key_cipher [0xc0] "aes" [1, 2, 3] [9, 9] 0
      = cmac xor_key_cipher [0xc0] "aes" [1, 2, 3] [9, 9] (block_size_of "aes") :=
  C13_granularity_default_in_high_level.1 xor_key_cipher [0xc0] "aes" [1, 2, 3] [9, 9]

/-- C14: the high-level `cmac` maps `"des"` and `"3des"` to a DES-family CBC
delegate with `block_size` 8, for which the low-level call uses `Rb = 0x1b`,
and `"aes"` to an AES-family CBC delegate with `block_size` 16 and
`Rb = 0x87`; for padding granularity 0 the low-level call receives
`block_size`; every name that is accepted gives one of these two rows. -/
theorem C14_algorithm_table :
    (∀ (impl : CipherImpl) (key data iv : ByteVector) (padding_size : Int) (crypto : String),
      crypto = "des" ∨ crypto = "3des" →
      cmac impl key crypto data iv padding_size
        = (build_lastiv 8 iv >>= fun lastiv =>
            cmac_low impl key { family := .DES, mode := .ENC_MODE_CBC } 8 data lastiv
              (toUInt32 (default_padding padding_size 8))
              >>= fun r => pure (truncate_tag r 8))) ∧
    (∀ (impl : CipherImpl) (key data iv : ByteVector) (padding_size : Int),
      cmac impl key "aes" data iv padding_size
        = (build_lastiv 16 iv >>= fun lastiv =>
            cmac_low impl key { family := .AES, mode := .ENC_MODE_CBC } 16 data lastiv
              (toUInt32 (default_padding padding_size 16))
              >>= fun r => pure (truncate_tag r 16))) ∧
    Rb 8 = 0x1b ∧ Rb 16 = 0x87 ∧
    toUInt32 (default_padding 0 8) = 8 ∧ toUInt32 (default_padding 0 16) = 16 ∧
    (∀ (crypto : String) (c : OpenSSLSymmetricCipher) (bs : Nat),
      select_cipher crypto = .ok (c, bs) →
        (c = { family := .DES, mode := .ENC_MODE_CBC } ∧ bs = 8 ∧ Rb bs = 0x1b ∧
          (crypto = "des" ∨ crypto = "3des")) ∨
        (c = { family := .AES, mode := .ENC_MODE_CBC } ∧ bs = 16 ∧ Rb bs = 0x87 ∧
          crypto = "aes")) := by
  refine ⟨?_, ?_, rfl, rfl, by decide, by decide, ?_⟩
  · intro impl key data iv padding_size crypto hn
    apply cmac_as_low_call
    rcases hn with hn | hn <;> subst hn <;> decide
  · intro impl key data iv padding_size
    exact cmac_as_low_call impl key "aes" data iv padding_size _ _ (by decide)
  · intro crypto c bs h
    rcases select_cipher_table crypto c bs h with ⟨hc, hb, hn⟩ | ⟨hc, hb, hn⟩
    · exact Or.inl ⟨hc, hb, by rw [hb]; rfl, hn⟩
    · exact Or.inr ⟨hc, hb, by rw [hb]; rfl, hn⟩

/-- C14, for `"3des"` with padding granularity 0 under the stand-in cipher. -/
theorem C14_algorithm_table_witness :
    cmac xor_key_cipher [0xc0] "3des" [1, 2, 3] [9, 9] 0
      = (build_lastiv 8 [9, 9] >>= fun lastiv =>
          cmac_low xor_key_cipher [0xc0] { family := .DES, mode := .ENC_MODE_CBC } 8 [1, 2, 3]
            lastiv (toUInt32 (default_padding 0 8))
            >>= fun r => pure (truncate_tag r 8)) :=
  C14_algorithm_table.1 xor_key_cipher [0xc0] [1, 2, 3] [9, 9] 0 "3des" (Or.inr rfl)

/-- C15: for every supported algorithm and every caller IV of at most
`block_size` bytes, the IV block handed to the low-level entry point is the
caller's bytes in order followed by zero bytes, `block_size` bytes in all; an
empty IV gives the all-zero block. -/
theorem C15_iv_block (crypto : String) (iv : ByteVector)
    (hname : crypto = "des" ∨ crypto = "3des" ∨ crypto = "aes")
    (hiv : iv.length ≤ block_size_of crypto) :
    ∃ cipherMAC : OpenSSLSymmetricCipher,
      select_cipher crypto = .ok (cipherMAC, block_size_of crypto) ∧
      build_lastiv (block_size_of crypto) iv
        = .ok (iv ++ List.replicate (block_size_of crypto - iv.length) 0x00) ∧
      (iv ++ List.replicate (block_size_of crypto - iv.length) 0x00).length
        = block_size_of crypto ∧
      build_lastiv (block_size_of crypto) [] = .ok (List.replicate (block_size_of crypto) 0x00) ∧
      ∀ (impl : CipherImpl) (key data : ByteVector) (padding_size : Int),
        cmac impl key crypto data iv padding_size
          = (cmac_low impl key cipherMAC (block_size_of crypto) data
                (iv ++ List.replicate (block_size_of crypto - iv.length) 0x00)
                (toUInt32 (default_padding padding_size (block_size_of crypto)))
              >>= fun r => pure (truncate_tag r (block_size_of crypto))) := by
  have hsel : ∃ c, select_cipher crypto = .ok (c, block_size_of crypto) := by
    rcases hname with h | h | h
    · subst h; exact ⟨{ family := .DES, mode := .ENC_MODE_CBC }, by decide⟩
    · subst h; exact ⟨{ family := .DES, mode := .ENC_MODE_CBC }, by decide⟩
    · subst h; exact ⟨{ family := .AES, mode := .ENC_MODE_CBC }, by decide⟩
  obtain ⟨c, hc⟩ := hsel
  have hbs : block_size_of crypto = 8 ∨ block_size_of crypto = 16 := by
    unfold block_size_of; split <;> simp
  have h1 := build_lastiv_eq (block_size_of crypto) iv hiv (by omega)
  refine ⟨c, hc, h1, ?_, ?_, ?_⟩
  · rw [List.length_append, List.length_replicate]; omega
  · have h2 := build_lastiv_eq (block_size_of crypto) [] (Nat.zero_le _) (by decide)
    simpa using h2
  · intro impl key data padding_size
    rw [cmac_as_low_call impl key crypto data iv padding_size c _ hc, h1]
    rfl

/-- C15, for `"aes"` and the IV `[9, 9, 9]`. -/
theorem C15_iv_block_witness :
    ∃ cipherMAC : OpenSSLSymmetricCipher,
      select_cipher "aes" = .ok (cipherMAC, block_size_of "aes") ∧
      build_lastiv (block_size_of "aes") [9, 9, 9]
        = .ok ([9, 9, 9] ++ List.replicate (block_size_of "aes" - [(9 : Byte), 9, 9].length) 0x00) ∧
      ([(9 : Byte), 9, 9] ++ List.replicate (block_size_of "aes" - [(9 : Byte), 9, 9].length) 0x00).length
        = block_size_of "aes" ∧
      build_lastiv (block_size_of "aes") [] = .ok (List.replicate (block_size_of "aes") 0x00) ∧
      ∀ (impl : CipherImpl) (key data : ByteVector) (padding_size : Int),
        cmac impl key "aes" data [9, 9, 9] padding_size
          = (cmac_low impl key cipherMAC (block_size_of "aes") data
                ([9, 9, 9] ++ List.replicate (block_size_of "aes" - [(9 : Byte), 9, 9].length) 0x00)
                (toUInt32 (default_padding padding_size (block_size_of "aes")))
              >>= fun r => pure (truncate_tag r (block_size_of "aes"))) :=
  C15_iv_block "aes" [9, 9, 9] (by decide) (by decide)

/-! ## C17: an IV longer than the block -/

theorem rd_out_of_bounds (v : ByteVector) (i : Nat) (h : v.length ≤ i) :
    rd v i = .error .outOfBounds := by
  have h1 : v[i]? = none := List.getElem?_eq_none h
  simp only [rd, h1]

theorem wr_out_of_bounds (v : ByteVector) (i : Nat) (b : Byte) (h : v.length ≤ i) :
    wr v i b = .error .outOfBounds := by
  have h1 : ¬ i < v.length := by omega
  simp only [wr, h1, if_false]

/-- When the IV is longer than the block, the copy loop fills the block and
then writes at the index just past its end. -/
theorem ivCopyLoop_out_of_bounds (iv : ByteVector) : ∀ (old todo done : ByteVector) (fuel : Nat),
    iv = done ++ todo → old.length < todo.length → done.length + old.length < 256 →
    old.length < fuel →
    ivCopyLoop iv fuel done.length (done ++ old) = .error .outOfBounds := by
  intro old
  induction old with
  | nil =>
    intro todo done fuel hiv hlt _ hf
    cases fuel with
    | zero => simp at hf
    | succ f =>
      cases todo with
      | nil => simp at hlt
      | cons t ts =>
        have hlen : done.length < iv.length := by rw [hiv]; simp
        have hr : rd iv done.length = .ok t := by rw [hiv]; exact rd_append_cons done t ts
        have hw : wr (done ++ []) done.length t = .error .outOfBounds :=
          wr_out_of_bounds _ _ _ (by simp)
        unfold ivCopyLoop
        simp only [hlen, if_true, hr, hw]
  | cons o os ih =>
    intro todo done fuel hiv hlt h256 hf
    cases fuel with
    | zero => simp at hf
    | succ f =>
      cases todo with
      | nil => simp at hlt
      | cons t ts =>
        have hlen : done.length < iv.length := by rw [hiv]; simp
        have hr : rd iv done.length = .ok t := by rw [hiv]; exact rd_append_cons done t ts
        have hw : wr (done ++ o :: os) done.length t = .ok (done ++ t :: os) :=
          wr_append_cons done o os t
        have h256a : done.length + (os.length + 1) < 256 := by
          rw [List.length_cons] at h256; exact h256
        have hnext : (done.length + 1) % 256 = (done ++ [t]).length := by
          rw [List.length_append, List.length_singleton]
          apply Nat.mod_eq_of_lt
          omega
        have h256b : (done ++ [t]).length + os.length < 256 := by
          rw [List.length_append, List.length_singleton]; omega
        have h1 := ih ts (done ++ [t]) f (by rw [hiv]; simp) (by simpa using hlt) h256b
          (by simpa using hf)
        unfold ivCopyLoop
        simp only [hlen, if_true, hr, hw, hnext]
        simpa using h1

theorem build_lastiv_out_of_bounds (block_size : Nat) (iv : ByteVector)
    (h : block_size < iv.length) (h256 : block_size < 256) :
    build_lastiv block_size iv = .error .outOfBounds := by
  have h0 : iv.length > 0 := by omega
  have h1 := ivCopyLoop_out_of_bounds iv (List.replicate block_size 0x00) iv [] 257 (by simp)
    (by simpa using h) (by simpa using h256) (by simp; omega)
  unfold build_lastiv
  simp only [h0, if_true]
  simpa using h1

/-- C17: for every supported algorithm and every caller IV, the IV copy loop
of the high-level `cmac`, run with its 8-bit counter, ends with every write
inside the IV block of `block_size` bytes if and only if the IV has at most
`block_size` bytes.  A longer IV is neither rejected by an exception nor
truncated: the loop writes at the index just past the end of the block, and
this is the outcome of the whole call. -/
theorem C17_iv_copy_loop (crypto : String) (iv : ByteVector)
    (hname : crypto = "des" ∨ crypto = "3des" ∨ crypto = "aes") :
    ((∃ lastiv, build_lastiv (block_size_of crypto) iv = .ok lastiv)
      ↔ iv.length ≤ block_size_of crypto) ∧
    (block_size_of crypto < iv.length →
      build_lastiv (block_size_of crypto) iv = .error .outOfBounds ∧
      wr (iv.take (block_size_of crypto)) (block_size_of crypto)
          (iv.getD (block_size_of crypto) 0x00) = .error .outOfBounds ∧
      ∀ (impl : CipherImpl) (key data : ByteVector) (padding_size : Int),
        cmac impl key crypto data iv padding_size = .error .outOfBounds) := by
  have hbs : block_size_of crypto = 8 ∨ block_size_of crypto = 16 := by
    unfold block_size_of; split <;> simp
  have hover : block_size_of crypto < iv.length →
      build_lastiv (block_size_of crypto) iv = .error .outOfBounds := fun h =>
    build_lastiv_out_of_bounds _ iv h (by omega)
  constructor
  · constructor
    · rintro ⟨lastiv, h⟩
      by_contra hc
      rw [hover (by omega)] at h
      cases h
    · intro h
      exact ⟨_, build_lastiv_eq _ iv h (by omega)⟩
  · intro h
    refine ⟨hover h, wr_out_of_bounds _ _ _ (by rw [List.length_take]; omega), ?_⟩
    intro impl key data padding_size
    have hsel : ∃ c, select_cipher crypto = .ok (c, block_size_of crypto) := by
      rcases hname with h | h | h
      · subst h; exact ⟨{ family := .DES, mode := .ENC_MODE_CBC }, by decide⟩
      · subst h; exact ⟨{ family := .DES, mode := .ENC_MODE_CBC }, by decide⟩
      · subst h; exact ⟨{ family := .AES, mode := .ENC_MODE_CBC }, by decide⟩
    obtain ⟨c, hc⟩ := hsel
    rw [cmac_as_low_call impl key crypto data iv padding_size c _ hc, hover h]
    rfl

/-- C17, for `"des"` and an IV of nine bytes. -/
theorem C17_iv_copy_loop_witness :
    ((∃ lastiv, build_lastiv (block_size_of "des") [1, 2, 3, 4, 5, 6, 7, 8, 9] = .ok lastiv)
      ↔ [(1 : Byte), 2, 3, 4, 5, 6, 7, 8, 9].length ≤ block_size_of "des") ∧
    (block_size_of "des" < [(1 : Byte), 2, 3, 4, 5, 6, 7, 8, 9].length →
      build_lastiv (block_size_of "des") [1, 2, 3, 4, 5, 6, 7, 8, 9] = .error .outOfBounds ∧
      wr ([(1 : Byte), 2, 3, 4, 5, 6, 7, 8, 9].take (block_size_of "des")) (block_size_of "des")
          ([(1 : Byte), 2, 3, 4, 5, 6, 7, 8, 9].getD (block_size_of "des") 0x00)
        = .error .outOfBounds ∧
      ∀ (impl : CipherImpl) (key data : ByteVector) (padding_size : Int),
        cmac impl key "des" data [1, 2, 3, 4, 5, 6, 7, 8, 9] padding_size
          = .error .outOfBounds) :=
  C17_iv_copy_loop "des" [1, 2, 3, 4, 5, 6, 7, 8, 9] (by decide)

/-! ## C16: the indices of the subkey XOR -/

/-- A subkey longer than the buffer: the first index of the XOR loop wraps
around and is outside the buffer. -/
theorem xor_subkey_out_of_bounds (padded K : ByteVector) (h : padded.length < K.length)
    (hK : K.length ≤ 2 ^ 64) : xor_subkey padded K = .error .outOfBounds := by
  have hidx : padded.length
      ≤ toSizeT ((padded.length : Int) - (K.length : Int) + ((0 : Nat) : Int)) := by
    unfold toSizeT
    split <;> omega
  have hbody : xor_body K 0 padded = .error .outOfBounds := by
    simp only [xor_body, rd_out_of_bounds padded _ hidx, bind, Except.bind]
  cases hk : K.length with
  | zero => omega
  | succ n =>
    unfold xor_subkey
    rw [hk]
    unfold forLoop
    rw [hbody]

theorem xor_indices_in_bounds_iff (padded K : ByteVector) (hK : K.length ≤ 2 ^ 64) :
    xor_indices_in_bounds padded K ↔ K.length ≤ padded.length := by
  constructor
  · intro h
    by_contra hc
    have h0 := h 0 (by omega)
    unfold toSizeT at h0
    split at h0 <;> omega
  · intro h i hi
    unfold toSizeT
    split <;> omega

theorem xor_subkey_ok_iff (padded K : ByteVector) (hK : K.length ≤ 2 ^ 64) :
    (∃ r, xor_subkey padded K = .ok r) ↔ K.length ≤ padded.length := by
  constructor
  · rintro ⟨r, h⟩
    by_contra hc
    rw [xor_subkey_out_of_bounds padded K (by omega) hK] at h
    cases h
  · intro h
    exact ⟨_, xor_subkey_eq padded K h⟩

/-- C16 as stated fails in its middle part: a granularity of at least
`block_size` does not always keep the XOR in bounds.  With `block_size = 16`,
`padding_size = 2 ^ 31` and the empty message the `int pad` is negative,
nothing is appended, the padded buffer is empty, and the first index of the
XOR with `K2` is `2 ^ 64 - 16`. -/
theorem C16_xor_bounds_counterexample :
    (16 : Nat) ≤ 2147483648 ∧
    pad_length 2147483648 ([] : ByteVector).length = .ok (-2147483648) ∧
    pad_data [] (-2147483648) = [] ∧
    toSizeT ((([] : ByteVector).length : Int) - ((16 : Nat) : Int) + ((0 : Nat) : Int))
      = 18446744073709551600 ∧
    cmac_low xor_key_cipher [0xc0] { family := .AES, mode := .ENC_MODE_CBC } 16 []
        (List.replicate 16 0x00) 2147483648
      = .error .outOfBounds := by
  decide

/-- C16, amended: in the low-level `cmac`, with a subkey of `block_size` bytes
(`block_size` an `unsigned int`), every index used by the subkey XOR lies
inside the padded buffer if and only if the padded length is at least
`block_size`, and then and only then the XOR loop runs through; for a
granularity `g` with `block_size ≤ g ≤ 2 ^ 31 - 1` the padded length is at
least `block_size` for every message; and with `block_size = 16`, `g = 4` and
four bytes of data the padded buffer has four bytes, the first index is
`2 ^ 64 - 12`, and the call ends there. -/
theorem C16_xor_bounds :
    (∀ (padded K : ByteVector) (block_size : Nat),
      K.length = block_size → block_size < 2 ^ 32 →
        (xor_indices_in_bounds padded K ↔ block_size ≤ padded.length) ∧
        ((∃ r, xor_subkey padded K = .ok r) ↔ block_size ≤ padded.length) ∧
        (padded.length < block_size → xor_subkey padded K = .error .outOfBounds)) ∧
    (∀ (data : ByteVector) (g block_size : Nat),
      1 ≤ g → g < 2 ^ 31 → block_size ≤ g →
        ∃ pad, pad_length g data.length = .ok pad ∧
          block_size ≤ (pad_data data pad).length) ∧
    (∀ (data K1 K2 : ByteVector), data.length = 4 → K1.length = 16 → K2.length = 16 →
      pad_length 4 data.length = .ok 0 ∧
      pad_data data 0 = data ∧
      ¬ xor_indices_in_bounds (pad_data data 0) K1 ∧
      toSizeT (((pad_data data 0).length : Int) - (K1.length : Int) + ((0 : Nat) : Int))
        = 18446744073709551604 ∧
      mask_last_block (pad_data data 0) K1 K2 0 false = .error .outOfBounds) ∧
    cmac_low xor_key_cipher [0xc0] { family := .AES, mode := .ENC_MODE_CBC } 16 [1, 2, 3, 4]
        (List.replicate 16 0x00) 4
      = .error .outOfBounds := by
  refine ⟨?_, ?_, ?_, by decide⟩
  · intro padded K block_size hK hbs
    have hK64 : K.length ≤ 2 ^ 64 := by omega
    rw [← hK]
    exact ⟨xor_indices_in_bounds_iff padded K hK64, xor_subkey_ok_iff padded K hK64,
      fun h => xor_subkey_out_of_bounds padded K h hK64⟩
  · intro data g block_size h1 h2 hle
    refine ⟨_, pad_length_eq g data.length h1 h2, ?_⟩
    rw [pad_data_length]
    by_cases hn : data.length = 0
    · simp only [hn, if_true]; omega
    · simp only [hn, if_false]
      have hd := pad_formula_dvd g data.length h1
      have hpos : 0 < data.length + (g - data.length % g) % g := by omega
      exact le_trans hle (Nat.le_of_dvd hpos hd)
  · intro data K1 K2 hd hK1 hK2
    have hp : pad_data data 0 = data := pad_data_of_nonpos data 0 (le_refl _)
    have hK64 : K1.length ≤ 2 ^ 64 := by omega
    refine ⟨by rw [hd]; decide, hp, ?_, ?_, ?_⟩
    · rw [hp, xor_indices_in_bounds_iff data K1 hK64]; omega
    · rw [hp, hd, hK1]; decide
    · rw [hp]
      unfold mask_last_block
      rw [if_pos ⟨rfl, rfl⟩]
      exact xor_subkey_out_of_bounds data K1 (by omega) hK64

/-- C16, for a padded buffer of 24 bytes and a subkey of 16 bytes. -/
theorem C16_xor_bounds_witness :
    (xor_indices_in_bounds (List.replicate 24 0x01) (List.replicate 16 0x02)
      ↔ 16 ≤ (List.replicate 24 (0x01 : Byte)).length) ∧
    ((∃ r, xor_subkey (List.replicate 24 0x01) (List.replicate 16 0x02) = .ok r)
      ↔ 16 ≤ (List.replicate 24 (0x01 : Byte)).length) ∧
    ((List.replicate 24 (0x01 : Byte)).length < 16 →
      xor_subkey (List.replicate 24 0x01) (List.replicate 16 0x02) = .error .outOfBounds) :=
  C16_xor_bounds.1 (List.replicate 24 0x01) (List.replicate 16 0x02) 16 (by decide) (by decide)

/-! ## C18: the doubling step is injective and fixes only the zero block -/

theorem byte_xor_val (a b : Byte) : (a ^^^ b).val = a.val ^^^ b.val := by
  show (a.val ^^^ b.val) % 256 = _
  apply Nat.mod_eq_of_lt
  exact Nat.xor_lt_two_pow (n := 8) a.isLt b.isLt

theorem byte_xor_cancel_right (a b x : Byte) (h : a ^^^ x = b ^^^ x) : a = b := by
  apply Fin.ext
  have h1 := congrArg Fin.val h
  rw [byte_xor_val, byte_xor_val] at h1
  exact Nat.xor_left_inj.mp h1

theorem byte_xor_cancel_left (a k k' : Byte) (h : a ^^^ k = a ^^^ k') : k = k' := by
  apply Fin.ext
  have h1 := congrArg Fin.val h
  rw [byte_xor_val, byte_xor_val] at h1
  exact Nat.xor_right_inj.mp h1

set_option maxRecDepth 100000 in
theorem shl_xor_zero_fixed : ∀ x : Byte, (x <<< 1) ^^^ (0x00 : Byte) = x → x = (0x00 : Byte) := by
  decide

set_option maxRecDepth 100000 in
theorem shl_or_zero_fixed : ∀ x : Byte, (x <<< 1) ||| (0x00 : Byte) = x → x = (0x00 : Byte) := by
  decide

set_option maxRecDepth 100000 in
theorem shl_xor_1b_fixed : ∀ x : Byte, (x <<< 1) ^^^ (0x1b : Byte) = x → x.val < 128 := by
  decide

set_option maxRecDepth 100000 in
theorem shl_xor_87_fixed : ∀ x : Byte, (x <<< 1) ^^^ (0x87 : Byte) = x → x.val < 128 := by
  decide

set_option maxRecDepth 100000 in
theorem carry_of_lt : ∀ b : Byte, b.val < 128 → carry b = (0x00 : Byte) := by decide

set_option maxRecDepth 100000 in
theorem shl_xor_zero_even : ∀ l : Byte, ((l <<< 1) ^^^ (0x00 : Byte)).val % 2 = 0 := by decide

set_option maxRecDepth 100000 in
theorem shl_xor_1b_odd : ∀ l : Byte, ((l <<< 1) ^^^ (0x1b : Byte)).val % 2 = 1 := by decide

set_option maxRecDepth 100000 in
theorem shl_xor_87_odd : ∀ l : Byte, ((l <<< 1) ^^^ (0x87 : Byte)).val % 2 = 1 := by decide

/-- A buffer that the shift without xor constant leaves unchanged is zero. -/
theorem shifted_zero_fixed : ∀ (rest : ByteVector) (a : Byte),
    shifted (0x00 : Byte) a rest = a :: rest →
    a :: rest = List.replicate (rest.length + 1) (0x00 : Byte) := by
  intro rest
  induction rest with
  | nil =>
    intro a h
    simp only [shifted, List.cons.injEq, and_true] at h
    rw [shl_xor_zero_fixed a h]
    rfl
  | cons b rest ih =>
    intro a h
    simp only [shifted, List.cons.injEq] at h
    have hb := ih b h.2
    have hb0 : b = (0x00 : Byte) := by
      rw [List.replicate_succ] at hb
      exact (List.cons.inj hb).1
    have hc : carry b = (0x00 : Byte) := by rw [hb0]; decide
    have ha : a = (0x00 : Byte) := by
      have h1 := h.1
      rw [hc] at h1
      exact shl_or_zero_fixed a h1
    rw [ha, List.length_cons, List.replicate_succ]
    exact congrArg _ hb

/-- A buffer that the shift with a feedback constant leaves unchanged has a
clear top bit. -/
theorem shifted_rb_fixed (rb : Byte) (hrb : rb = (0x1b : Byte) ∨ rb = (0x87 : Byte)) :
    ∀ (rest : ByteVector) (a : Byte), shifted rb a rest = a :: rest → a.val < 128 := by
  intro rest
  induction rest with
  | nil =>
    intro a h
    simp only [shifted, List.cons.injEq, and_true] at h
    rcases hrb with hr | hr
    · rw [hr] at h; exact shl_xor_1b_fixed a h
    · rw [hr] at h; exact shl_xor_87_fixed a h
  | cons b rest ih =>
    intro a h
    simp only [shifted, List.cons.injEq] at h
    have hb := ih b h.2
    have h1 := h.1
    rw [carry_of_lt b hb] at h1
    rw [shl_or_zero_fixed a h1]
    decide

theorem subkey_of_replicate_zero (rb : Byte) : ∀ n : Nat,
    subkey_of (List.replicate (n + 1) (0x00 : Byte)) rb = List.replicate (n + 1) (0x00 : Byte) := by
  have hs : ∀ n : Nat, shifted (0x00 : Byte) (0x00 : Byte) (List.replicate n (0x00 : Byte))
      = List.replicate (n + 1) (0x00 : Byte) := by
    intro n
    induction n with
    | zero => decide
    | succ n ih =>
      rw [List.replicate_succ, shifted, ih]
      rfl
  intro n
  rw [List.replicate_succ, subkey_of]
  exact hs n

/-- The fixed points of the doubling step. -/
theorem subkey_of_fixed_iff (rb : Byte) (hrb : rb = (0x1b : Byte) ∨ rb = (0x87 : Byte))
    (X : ByteVector) (hX : X ≠ []) :
    subkey_of X rb = X ↔ X = List.replicate X.length (0x00 : Byte) := by
  cases X with
  | nil => exact absurd rfl hX
  | cons a rest =>
    constructor
    · intro h0
      have h : shifted (if a &&& (0x80 : Byte) = (0x00 : Byte) then (0x00 : Byte) else rb) a rest
          = a :: rest := h0
      by_cases ha : a &&& (0x80 : Byte) = (0x00 : Byte)
      · rw [if_pos ha] at h
        exact shifted_zero_fixed rest a h
      · rw [if_neg ha] at h
        have hlt := shifted_rb_fixed rb hrb rest a h
        exact absurd ((top_bit_clear_iff a).mpr hlt) ha
    · intro h
      rw [h, List.length_cons]
      exact subkey_of_replicate_zero rb rest.length

theorem beValue_injective : ∀ (X X' : ByteVector), X.length = X'.length →
    beValue X = beValue X' → X = X' := by
  intro X X' hl hv
  rw [← toBE_beValue X, ← toBE_beValue X', hl, hv]

/-- The doubling step is injective. -/
theorem subkey_of_injective (rb : Byte) (hrb : rb = (0x1b : Byte) ∨ rb = (0x87 : Byte))
    (X X' : ByteVector) (h : subkey_of X rb = subkey_of X' rb) : X = X' := by
  have hlen : X.length = X'.length := by
    rw [← subkey_of_length X rb, ← subkey_of_length X' rb, h]
  cases X with
  | nil =>
    cases X' with
    | nil => rfl
    | cons a' rest' => simp at hlen
  | cons a rest =>
    cases X' with
    | nil => simp at hlen
    | cons a' rest' =>
      have hrl : rest.length = rest'.length := by simpa using hlen
      obtain ⟨front, l, _, hf, h3⟩ := shift_loop_split rest a
      obtain ⟨front', l', _, hf', h3'⟩ := shift_loop_split rest' a'
      have hodd : ∀ l : Byte, ((l <<< 1) ^^^ rb).val % 2 = 1 := by
        intro l
        rcases hrb with hr | hr
        · rw [hr]; exact shl_xor_1b_odd l
        · rw [hr]; exact shl_xor_87_odd l
      have h0 : shifted (if a &&& (0x80 : Byte) = (0x00 : Byte) then (0x00 : Byte) else rb) a rest
          = shifted (if a' &&& (0x80 : Byte) = (0x00 : Byte) then (0x00 : Byte) else rb) a' rest' :=
        h
      rw [h3, h3'] at h0
      have h := h0
      have hlast := List.append_inj_right' h rfl
      have hfront := List.append_inj_left' h rfl
      simp only [List.cons.injEq, and_true] at hlast
      have hsame : shifted (0x00 : Byte) a rest = shifted (0x00 : Byte) a' rest' ∧
          a.val / 128 = a'.val / 128 := by
        by_cases ha : a &&& (0x80 : Byte) = (0x00 : Byte)
        · by_cases ha' : a' &&& (0x80 : Byte) = (0x00 : Byte)
          · rw [if_pos ha, if_pos ha'] at hlast
            have h1 := (top_bit_clear_iff a).mp ha
            have h2 := (top_bit_clear_iff a').mp ha'
            refine ⟨by rw [h3, h3', hfront, hlast], by omega⟩
          · rw [if_pos ha, if_neg ha'] at hlast
            have h1 := shl_xor_zero_even l
            have h2 := hodd l'
            rw [hlast] at h1
            omega
        · by_cases ha' : a' &&& (0x80 : Byte) = (0x00 : Byte)
          · rw [if_neg ha, if_pos ha'] at hlast
            have h1 := shl_xor_zero_even l'
            have h2 := hodd l
            rw [hlast] at h2
            omega
          · rw [if_neg ha, if_neg ha'] at hlast
            have hl : l <<< 1 = l' <<< 1 := byte_xor_cancel_right _ _ _ hlast
            have h1 : ¬ a.val < 128 := fun hc => ha ((top_bit_clear_iff a).mpr hc)
            have h2 : ¬ a'.val < 128 := fun hc => ha' ((top_bit_clear_iff a').mpr hc)
            have hA := a.isLt
            have hA' := a'.isLt
            refine ⟨by rw [h3, h3', hfront, hl], by omega⟩
      obtain ⟨hs, hm⟩ := hsame
      have hv := beValue_shifted_zero rest a
      have hv' := beValue_shifted_zero rest' a'
      rw [hs, hrl, hm] at hv
      exact beValue_injective _ _ hlen (by omega)

theorem Rb_cases (block_size : Nat) :
    Rb block_size = (0x1b : Byte) ∨ Rb block_size = (0x87 : Byte) := by
  unfold Rb
  split
  · exact Or.inl rfl
  · exact Or.inr rfl

/-- Two doubling steps give the same block twice exactly from the zero
block. -/
theorem double_subkey_eq_iff (rb : Byte) (hrb : rb = (0x1b : Byte) ∨ rb = (0x87 : Byte))
    (L : ByteVector) (hL : L ≠ []) :
    subkey_of L rb = subkey_of (subkey_of L rb) rb ↔ L = List.replicate L.length (0x00 : Byte) := by
  have hK1 := subkey_of_ne_nil L rb hL
  have hlen := subkey_of_length L rb
  have hpos : L.length = (L.length - 1) + 1 := by
    have : L.length ≠ 0 := fun h => hL (List.length_eq_zero.mp h)
    omega
  have hz : subkey_of (List.replicate L.length (0x00 : Byte)) rb
      = List.replicate L.length (0x00 : Byte) := by
    rw [hpos]; exact subkey_of_replicate_zero rb _
  constructor
  · intro h
    have h1 := (subkey_of_fixed_iff rb hrb _ hK1).mp h.symm
    rw [hlen, ← hz] at h1
    exact subkey_of_injective rb hrb _ _ h1
  · intro h
    rw [h, hz, hz]

/-- The subkeys of the low-level `cmac` are equal exactly when `L` is zero. -/
theorem subkeys_equal_iff (impl : CipherImpl) (key : ByteVector)
    (cipherMAC : OpenSSLSymmetricCipher) (block_size : Nat) (L K1 K2 : ByteVector)
    (hL : impl (cipherK1K2 cipherMAC) (List.replicate block_size 0x00) (symkey cipherMAC key)
      (.createNull cipherMAC.family) = .ok L)
    (hne : L ≠ [])
    (hsub : subkeys impl key cipherMAC block_size = .ok (K1, K2)) :
    K1 = K2 ↔ L = List.replicate L.length (0x00 : Byte) := by
  rw [subkeys_eq impl key cipherMAC block_size L hL hne] at hsub
  simp only [Except.ok.injEq, Prod.mk.injEq] at hsub
  rw [← hsub.1, ← hsub.2]
  exact double_subkey_eq_iff _ (Rb_cases block_size) L hne

/-- C18: for each feedback constant `0x1b` and `0x87` the doubling step of
the subkey derivation (`shift_string(X)` when the top bit of `X[0]` is 0,
`shift_string(X, Rb)` otherwise) is injective on the blocks of any length
`n ≥ 1`, and its only fixed point is the all-zero block.  So different `L`
give different `K1`, and `K1 = K2` exactly when `L` is all zero, also for the
subkeys the low-level `cmac` derives. -/
theorem C18_doubling_step :
    (∀ rb : Byte, rb = (0x1b : Byte) ∨ rb = (0x87 : Byte) →
      (∀ (a : Byte) (rest : ByteVector),
        (a.val < 128 → next_subkey (a :: rest) rb = shift_string (a :: rest)) ∧
        (128 ≤ a.val → next_subkey (a :: rest) rb = shift_string (a :: rest) rb)) ∧
      (∀ X X' : ByteVector, X ≠ [] → X.length = X'.length →
        next_subkey X rb = next_subkey X' rb → X = X') ∧
      (∀ X : ByteVector, X ≠ [] →
        (next_subkey X rb = .ok X ↔ X = List.replicate X.length (0x00 : Byte))) ∧
      (∀ L K1 K2 : ByteVector, L ≠ [] → next_subkey L rb = .ok K1 → next_subkey K1 rb = .ok K2 →
        (K1 = K2 ↔ L = List.replicate L.length (0x00 : Byte)))) ∧
    (∀ (impl : CipherImpl) (key : ByteVector) (cipherMAC : OpenSSLSymmetricCipher)
        (block_size : Nat) (L K1 K2 : ByteVector),
      impl (cipherK1K2 cipherMAC) (List.replicate block_size 0x00) (symkey cipherMAC key)
        (.createNull cipherMAC.family) = .ok L →
      L ≠ [] →
      subkeys impl key cipherMAC block_size = .ok (K1, K2) →
      (K1 = K2 ↔ L = List.replicate L.length (0x00 : Byte))) := by
  refine ⟨?_, subkeys_equal_iff⟩
  intro rb hrb
  refine ⟨?_, ?_, ?_, ?_⟩
  · intro a rest
    have hr : rd (a :: rest) 0 = .ok a := rd_append_cons [] a rest
    constructor
    · intro h
      have hb := (top_bit_clear_iff a).mpr h
      simp only [next_subkey, hr, bind, Except.bind, hb, if_true]
    · intro h
      have hb : ¬ (a &&& (0x80 : Byte) = (0x00 : Byte)) := fun hc =>
        absurd ((top_bit_clear_iff a).mp hc) (by omega)
      simp only [next_subkey, hr, bind, Except.bind, hb, if_false]
  · intro X X' hX hlen h
    have hX' : X' ≠ [] := by
      intro h0
      rw [h0] at hlen
      exact hX (List.length_eq_zero.mp hlen)
    rw [next_subkey_eq X rb hX, next_subkey_eq X' rb hX'] at h
    exact subkey_of_injective rb hrb X X' (Except.ok.inj h)
  · intro X hX
    rw [next_subkey_eq X rb hX]
    constructor
    · intro h
      exact (subkey_of_fixed_iff rb hrb X hX).mp (Except.ok.inj h)
    · intro h
      exact congrArg _ ((subkey_of_fixed_iff rb hrb X hX).mpr h)
  · intro L K1 K2 hL h1 h2
    rw [next_subkey_eq L rb hL] at h1
    have hK1 := Except.ok.inj h1
    rw [← hK1, next_subkey_eq _ rb (subkey_of_ne_nil L rb hL)] at h2
    rw [← hK1, ← Except.ok.inj h2]
    exact double_subkey_eq_iff rb hrb L hL

/-- C18, for `0x87` and the block `[0x40, 0x01]`, which is not a fixed
point. -/
theorem C18_doubling_step_witness :
    next_subkey [0x40, 0x01] 0x87 = .ok [0x40, 0x01]
      ↔ [(0x40 : Byte), 0x01] = List.replicate [(0x40 : Byte), 0x01].length (0x00 : Byte) :=
  (C18_doubling_step.1 0x87 (Or.inr rfl)).2.2.1 [0x40, 0x01] (by decide)

/-! ## C19: the padding step is injective -/

theorem mask_last_block_choice (padded K1 K2 : ByteVector) (pad : Int) (forceK2Use : Bool) :
    mask_last_block padded K1 K2 pad forceK2Use
      = xor_subkey padded (if uses_K1 pad forceK2Use = true then K1 else K2) := by
  unfold mask_last_block uses_K1
  by_cases h : pad = 0 ∧ forceK2Use = false
  · rw [if_pos h, if_pos (decide_eq_true h)]
  · rw [if_neg h, if_neg (by simpa using h)]

/-- The position of the `0x80` byte in front of a run of zero bytes. -/
theorem zeros_marker_inj : ∀ (k k' : Nat) (A B : ByteVector),
    List.replicate k (0x00 : Byte) ++ (0x80 : Byte) :: A
      = List.replicate k' (0x00 : Byte) ++ (0x80 : Byte) :: B → A = B := by
  intro k
  induction k with
  | zero =>
    intro k' A B h
    cases k' with
    | zero => simpa using h
    | succ n =>
      rw [List.replicate_succ] at h
      have h1 := (List.cons.inj h).1
      exact absurd h1 (by decide)
  | succ k ih =>
    intro k' A B h
    cases k' with
    | zero =>
      rw [List.replicate_succ] at h
      have h1 := (List.cons.inj h).1
      exact absurd h1 (by decide)
    | succ n =>
      rw [List.replicate_succ, List.replicate_succ] at h
      exact ih n A B (List.cons.inj h).2

/-- The message is what stands before the last `0x80` of its padded form. -/
theorem padding_suffix_inj (m m' : ByteVector) (k k' : Nat)
    (h : m ++ (0x80 : Byte) :: List.replicate k (0x00 : Byte)
      = m' ++ (0x80 : Byte) :: List.replicate k' (0x00 : Byte)) : m = m' := by
  have h1 := congrArg List.reverse h
  simp only [List.reverse_append, List.reverse_cons, List.reverse_replicate,
    List.append_assoc, List.singleton_append] at h1
  exact List.reverse_inj.mp (zeros_marker_inj k k' _ _ h1)

/-- The `int pad` of lines 132-134 for a granularity that is not zero. -/
theorem pad_length_val (g n : Nat) (h1 : 1 ≤ g) :
    pad_length g n = .ok (toInt32 (if n = 0 then g else (g - n % g) % g)) := by
  have hg : g ≠ 0 := by omega
  unfold pad_length
  rw [if_neg hg]
  by_cases hn : n = 0
  · simp only [hn, if_true]
  · simp only [hn, if_false]

theorem toInt32_eq_zero_iff (v : Nat) (h : v < 2 ^ 32) : toInt32 v = 0 ↔ v = 0 := by
  unfold toInt32
  split <;> omega

theorem toInt32_pos (v : Nat) (h : v < 2 ^ 32) (hp : 0 < toInt32 v) : toInt32 v = (v : Int) := by
  unfold toInt32 at hp ⊢
  split at hp <;> split <;> omega

/-- The padded buffer according to the sign of the `int pad`. -/
theorem pad_data_cases (m : ByteVector) (v : Nat) (h : v < 2 ^ 32) :
    (toInt32 v ≤ 0 ∧ pad_data m (toInt32 v) = m) ∨
    (0 < toInt32 v ∧ 0 < v ∧
      pad_data m (toInt32 v) = m ++ (0x80 : Byte) :: List.replicate (v - 1) (0x00 : Byte)) := by
  by_cases hp : 0 < toInt32 v
  · right
    have hv := toInt32_pos v h hp
    have h0 : v ≠ 0 := by
      intro h0; rw [h0] at hp; exact absurd hp (by decide)
    refine ⟨hp, by omega, ?_⟩
    rw [hv, pad_data_eq, if_neg h0]
  · left
    exact ⟨by omega, pad_data_of_nonpos m _ (by omega)⟩

/-- The pad value of an aligned, non-empty message is zero. -/
theorem pad_value_aligned (g n : Nat) (hn : n ≠ 0) (hm : n % g = 0) :
    (if n = 0 then g else (g - n % g) % g) = 0 := by
  rw [if_neg hn, hm, Nat.sub_zero, Nat.mod_self]

theorem pad_value_le (g n : Nat) (h1 : 1 ≤ g) :
    (if n = 0 then g else (g - n % g) % g) ≤ g := by
  split
  · exact le_refl g
  · exact Nat.le_of_lt (Nat.mod_lt _ (by omega))

theorem pad_value_dvd (g n : Nat) (h1 : 1 ≤ g) :
    g ∣ n + (if n = 0 then g else (g - n % g) % g) := by
  by_cases hn : n = 0
  · rw [if_pos hn, hn, Nat.zero_add]
  · rw [if_neg hn]; exact pad_formula_dvd g n h1

/-- C19: with `forceK2Use = false` and a fixed granularity `g ≥ 1` (an
`unsigned int`), two messages with the same padded buffer and the same subkey
choice are the same message: the padding step of the low-level `cmac` is
injective.  The subkey choice is the one `mask_last_block` makes. -/
theorem C19_padding_injective (g : Nat) (m m' : ByteVector) (pad pad' : Int)
    (h1 : 1 ≤ g) (h2 : g < 2 ^ 32)
    (hp : pad_length g m.length = .ok pad) (hp' : pad_length g m'.length = .ok pad')
    (hbuf : pad_data m pad = pad_data m' pad')
    (hkey : uses_K1 pad false = uses_K1 pad' false) :
    m = m' ∧
    (∀ padded K1 K2 : ByteVector,
      mask_last_block padded K1 K2 pad false
        = xor_subkey padded (if uses_K1 pad false = true then K1 else K2)) := by
  refine ⟨?_, fun padded K1 K2 => mask_last_block_choice padded K1 K2 pad false⟩
  rw [pad_length_val g _ h1] at hp hp'
  have hpe := Except.ok.inj hp
  have hpe' := Except.ok.inj hp'
  have hv := pad_value_le g m.length h1
  have hv' := pad_value_le g m'.length h1
  have hd := pad_value_dvd g m.length h1
  have hd' := pad_value_dvd g m'.length h1
  have ha := pad_value_aligned g m.length
  have ha' := pad_value_aligned g m'.length
  generalize (if m.length = 0 then g else (g - m.length % g) % g) = v at hpe hv hd ha
  generalize (if m'.length = 0 then g else (g - m'.length % g) % g) = v' at hpe' hv' hd' ha'
  have hz := toInt32_eq_zero_iff v (by omega)
  have hz' := toInt32_eq_zero_iff v' (by omega)
  have hk : pad = 0 ↔ pad' = 0 := by
    unfold uses_K1 at hkey
    simp only [and_true, decide_eq_decide] at hkey
    exact hkey
  rw [← hpe, ← hpe'] at hbuf hk
  -- an aligned length leaves no room for a pad that is not zero
  have hal : ∀ (x y w : Nat), g ∣ x + w → y = x + w → 0 < w → y ≠ 0 ∧ y % g = 0 := by
    intro x y w hdv hy hw
    rw [hy]
    exact ⟨by omega, Nat.mod_eq_zero_of_dvd hdv⟩
  rcases pad_data_cases m v (by omega) with ⟨hs, hb⟩ | ⟨hs, hvpos, hb⟩ <;>
    rcases pad_data_cases m' v' (by omega) with ⟨hs', hb'⟩ | ⟨hs', hvpos', hb'⟩
  · rw [hb, hb'] at hbuf; exact hbuf
  · rw [hb, hb'] at hbuf
    have hlen : m.length = m'.length + v' := by
      have := congrArg List.length hbuf
      simp only [List.length_append, List.length_cons, List.length_replicate] at this
      omega
    obtain ⟨hm0, hmod⟩ := hal m'.length m.length v' hd' hlen hvpos'
    have hv0 := ha hm0 hmod
    have : toInt32 v' = 0 := hk.mp (hz.mpr hv0)
    omega
  · rw [hb, hb'] at hbuf
    have hlen : m'.length = m.length + v := by
      have := congrArg List.length hbuf
      simp only [List.length_append, List.length_cons, List.length_replicate] at this
      omega
    obtain ⟨hm0, hmod⟩ := hal m.length m'.length v hd hlen hvpos
    have hv0 := ha' hm0 hmod
    have : toInt32 v = 0 := hk.mpr (hz'.mpr hv0)
    omega
  · rw [hb, hb'] at hbuf
    exact padding_suffix_inj m m' _ _ hbuf

/-- C19, for granularity 4 and the message `[1, 0x80]`, whose pad is 2. -/
theorem C19_padding_injective_witness :
    [(1 : Byte), 0x80] = [1, 0x80] ∧
    (∀ padded K1 K2 : ByteVector,
      mask_last_block padded K1 K2 2 false
        = xor_subkey padded (if uses_K1 2 false = true then K1 else K2)) :=
  C19_padding_injective 4 [1, 0x80] [1, 0x80] 2 2 (by decide) (by decide) (by decide)
    (by decide) rfl rfl

/-! ## C11: `forceK2Use` on an aligned message -/

theorem zipWith_xor_inj : ∀ (D K K' : ByteVector), D.length = K.length → D.length = K'.length →
    List.zipWith (· ^^^ ·) D K = List.zipWith (· ^^^ ·) D K' → K = K' := by
  intro D
  induction D with
  | nil =>
    intro K K' h h' _
    rw [List.length_eq_zero.mp h.symm, List.length_eq_zero.mp h'.symm]
  | cons d ds ih =>
    intro K K' h h' he
    cases K with
    | nil => simp at h
    | cons k ks =>
      cases K' with
      | nil => simp at h'
      | cons k' ks' =>
        simp only [List.zipWith_cons_cons, List.cons.injEq] at he
        rw [byte_xor_cancel_left d k k' he.1,
          ih ks ks' (by simpa using h) (by simpa using h') he.2]

/-- Two subkeys of the same length that mask a buffer to the same bytes are
the same subkey. -/
theorem xor_last_inj (padded K K' : ByteVector) (hK : K.length ≤ padded.length)
    (hKK : K.length = K'.length) (h : xor_last padded K = xor_last padded K') : K = K' := by
  unfold xor_last at h
  rw [← hKK] at h
  have h1 := List.append_cancel_left h
  have hd : (padded.drop (padded.length - K.length)).length = K.length := by
    rw [List.length_drop]; omega
  exact zipWith_xor_inj _ K K' hd (by rw [hd, hKK]) h1

theorem run_cipher_inj (impl : CipherImpl) (c : OpenSSLSymmetricCipher) (a b : ByteVector)
    (k : SymmetricKey) (iv : InitializationVector)
    (h : run_cipher impl c a k iv = run_cipher impl c b k iv) :
    impl c a k iv = impl c b k iv := by
  unfold run_cipher at h
  cases ha : impl c a k iv with
  | error e =>
    cases hb : impl c b k iv with
    | error e' =>
      rw [ha, hb] at h
      simp only [Except.error.injEq, Fault.cipherFailure.injEq] at h
      rw [h]
    | ok d' => rw [ha, hb] at h; cases h
  | ok d =>
    cases hb : impl c b k iv with
    | error e' => rw [ha, hb] at h; cases h
    | ok d' =>
      rw [ha, hb] at h
      simp only [Except.ok.injEq] at h
      rw [h]

/-- The stand-in cipher maps different sources to different results. -/
theorem xor_key_cipher_inj (c : OpenSSLSymmetricCipher) (a b : ByteVector) (k : SymmetricKey)
    (iv : InitializationVector) (h : xor_key_cipher c a k iv = xor_key_cipher c b k iv) :
    a = b := by
  have h1 : a.map (· ^^^ k.data.headD 0x00) = b.map (· ^^^ k.data.headD 0x00) :=
    Except.ok.inj h
  have hf : Function.Injective (fun x : Byte => x ^^^ k.data.headD 0x00) :=
    fun x y hxy => byte_xor_cancel_right x y _ hxy
  exact List.map_injective_iff.mpr hf h1

/-- C11 as stated fails.  The length of the empty message is a multiple of 16,
and for it the pad is 16 and `K2` is used whatever `forceK2Use` is: under the
stand-in cipher with key `[0xc0]` the two results are the same block.  For an
aligned message of 16 bytes the two results are the same when `L` is the zero
block (key `[0x00]`), since then `K1 = K2`, and under a cipher that does not
look at its source.  For an aligned message shorter than the block
(`block_size = 16`, granularity 4, four bytes) both calls end at the first
index of the XOR. -/
theorem C11_forceK2Use_counterexample :
    (([] : ByteVector).length % 16 = 0 ∧
      cmac_low xor_key_cipher [0xc0] { family := .AES, mode := .ENC_MODE_CBC } 16 []
          (List.replicate 16 0x00) 16 true
        = cmac_low xor_key_cipher [0xc0] { family := .AES, mode := .ENC_MODE_CBC } 16 []
          (List.replicate 16 0x00) 16 false) ∧
    ((List.replicate 16 (0x07 : Byte)).length % 16 = 0 ∧
      cmac_low xor_key_cipher [0x00] { family := .AES, mode := .ENC_MODE_CBC } 16
          (List.replicate 16 0x07) (List.replicate 16 0x00) 16 true
        = cmac_low xor_key_cipher [0x00] { family := .AES, mode := .ENC_MODE_CBC } 16
          (List.replicate 16 0x07) (List.replicate 16 0x00) 16 false) ∧
    cmac_low constant_cipher [0xc0] { family := .AES, mode := .ENC_MODE_CBC } 16
        (List.replicate 16 0x07) (List.replicate 16 0x00) 16 true
      = cmac_low constant_cipher [0xc0] { family := .AES, mode := .ENC_MODE_CBC } 16
        (List.replicate 16 0x07) (List.replicate 16 0x00) 16 false ∧
    ([(1 : Byte), 2, 3, 4].length % 4 = 0 ∧
      cmac_low xor_key_cipher [0xc0] { family := .AES, mode := .ENC_MODE_CBC } 16 [1, 2, 3, 4]
          (List.replicate 16 0x00) 4 true
        = cmac_low xor_key_cipher [0xc0] { family := .AES, mode := .ENC_MODE_CBC } 16
          [1, 2, 3, 4] (List.replicate 16 0x00) 4 false) := by
  have h1 : ∀ force : Bool,
      cmac_low xor_key_cipher [0xc0] { family := .AES, mode := .ENC_MODE_CBC } 16 []
        (List.replicate 16 0x00) 16 force
        = .ok [67, 195, 195, 195, 195, 195, 195, 195, 195, 195, 195, 195, 195, 195, 194, 73] := by
    intro force; cases force <;> decide
  have h2 : ∀ force : Bool,
      cmac_low xor_key_cipher [0x00] { family := .AES, mode := .ENC_MODE_CBC } 16
        (List.replicate 16 0x07) (List.replicate 16 0x00) 16 force
        = .ok (List.replicate 16 0x07) := by
    intro force; cases force <;> decide
  have h3 : ∀ force : Bool,
      cmac_low constant_cipher [0xc0] { family := .AES, mode := .ENC_MODE_CBC } 16
        (List.replicate 16 0x07) (List.replicate 16 0x00) 16 force
        = .ok (List.replicate 16 0xc0) := by
    intro force; cases force <;> decide
  have h4 : ∀ force : Bool,
      cmac_low xor_key_cipher [0xc0] { family := .AES, mode := .ENC_MODE_CBC } 16 [1, 2, 3, 4]
        (List.replicate 16 0x00) 4 force
        = .error .outOfBounds := by
    intro force; cases force <;> decide
  exact ⟨⟨by decide, by rw [h1 true, h1 false]⟩, ⟨by decide, by rw [h2 true, h2 false]⟩,
    by rw [h3 true, h3 false], ⟨by decide, by rw [h4 true, h4 false]⟩⟩

/-- C11, amended: for every key, cipher delegate, block size of at least one
byte, last IV, granularity `g ≥ 1` and every non-empty message whose length is
a multiple of `g` and at least `block_size`, when the ECB encryption `L` of the
zero block has `block_size` bytes and is not all zero, the subkeys differ, the
chained cipher is called on the message with its last block XORed with `K1`
for `forceK2Use = false` and with `K2` for `forceK2Use = true`, these two
buffers differ, and the two results differ when the chained cipher maps
different buffers to different results. -/
theorem C11_forceK2Use_changes_aligned (impl : CipherImpl) (key : ByteVector)
    (cipherMAC : OpenSSLSymmetricCipher) (block_size : Nat) (data lastIV L : ByteVector)
    (g : Nat)
    (hL : impl (cipherK1K2 cipherMAC) (List.replicate block_size 0x00) (symkey cipherMAC key)
      (.createNull cipherMAC.family) = .ok L)
    (hLlen : L.length = block_size) (hbs : 1 ≤ block_size)
    (hLnz : L ≠ List.replicate block_size (0x00 : Byte))
    (hg : 1 ≤ g) (hne : data ≠ []) (hdvd : data.length % g = 0)
    (hlen : block_size ≤ data.length)
    (hinj : ∀ a b : ByteVector,
      impl cipherMAC a (symkey cipherMAC key) (.createFromData cipherMAC.family lastIV)
        = impl cipherMAC b (symkey cipherMAC key) (.createFromData cipherMAC.family lastIV) →
      a = b) :
    ∃ K1 K2 : ByteVector,
      subkeys impl key cipherMAC block_size = .ok (K1, K2) ∧ K1 ≠ K2 ∧
      cmac_low impl key cipherMAC block_size data lastIV g false
        = run_cipher impl cipherMAC (xor_last data K1) (symkey cipherMAC key)
            (.createFromData cipherMAC.family lastIV) ∧
      cmac_low impl key cipherMAC block_size data lastIV g true
        = run_cipher impl cipherMAC (xor_last data K2) (symkey cipherMAC key)
            (.createFromData cipherMAC.family lastIV) ∧
      xor_last data K1 ≠ xor_last data K2 ∧
      cmac_low impl key cipherMAC block_size data lastIV g true
        ≠ cmac_low impl key cipherMAC block_size data lastIV g false := by
  have hLne : L ≠ [] := by
    intro h0; rw [h0] at hLlen; simp at hLlen; omega
  have hsub := subkeys_eq impl key cipherMAC block_size L hL hLne
  have hK1len : (subkey_of L (Rb block_size)).length = block_size := by
    rw [subkey_of_length, hLlen]
  have hK2len : (subkey_of (subkey_of L (Rb block_size)) (Rb block_size)).length = block_size := by
    rw [subkey_of_length, hK1len]
  have hKne : subkey_of L (Rb block_size)
      ≠ subkey_of (subkey_of L (Rb block_size)) (Rb block_size) := by
    intro h
    have h1 := (double_subkey_eq_iff _ (Rb_cases block_size) L hLne).mp h
    rw [hLlen] at h1
    exact hLnz h1
  have hn0 : data.length ≠ 0 := fun h => hne (List.length_eq_zero.mp h)
  have hpad : pad_length g data.length = .ok 0 := by
    rw [pad_length_val g _ hg, pad_value_aligned g _ hn0 hdvd]
    rfl
  have hdata : pad_data data 0 = data := pad_data_of_nonpos data 0 (le_refl _)
  generalize subkey_of L (Rb block_size) = K1 at hsub hK1len hK2len hKne
  generalize subkey_of K1 (Rb block_size) = K2 at hsub hK2len hKne
  have hfalse : cmac_low impl key cipherMAC block_size data lastIV g false
      = run_cipher impl cipherMAC (xor_last data K1) (symkey cipherMAC key)
          (.createFromData cipherMAC.family lastIV) := by
    simp only [cmac_low, hsub, hpad, hdata, bind, Except.bind, mask_last_block_choice]
    rw [show uses_K1 0 false = true from rfl, if_pos rfl,
      xor_subkey_eq data K1 (by omega)]
  have htrue : cmac_low impl key cipherMAC block_size data lastIV g true
      = run_cipher impl cipherMAC (xor_last data K2) (symkey cipherMAC key)
          (.createFromData cipherMAC.family lastIV) := by
    simp only [cmac_low, hsub, hpad, hdata, bind, Except.bind, mask_last_block_choice]
    rw [show uses_K1 0 true = false from rfl, if_neg (by decide),
      xor_subkey_eq data K2 (by omega)]
  have hbuf : xor_last data K1 ≠ xor_last data K2 := fun h =>
    hKne (xor_last_inj data K1 K2 (by omega) (by omega) h)
  refine ⟨K1, K2, hsub, hKne, hfalse, htrue, hbuf, ?_⟩
  rw [hfalse, htrue]
  intro h
  exact hbuf (hinj _ _ (run_cipher_inj impl cipherMAC _ _ _ _ h)).symm

/-- C11, for an AES delegate, `block_size = g = 16` and the message of
sixteen bytes `0x07` under the stand-in cipher with key `[0xc0]`, for which
`L` is sixteen bytes `0xc0`. -/
theorem C11_forceK2Use_changes_aligned_witness :
    ∃ K1 K2 : ByteVector,
      subkeys xor_key_cipher [0xc0] { family := .AES, mode := .ENC_MODE_CBC } 16
        = .ok (K1, K2) ∧ K1 ≠ K2 ∧
      cmac_low xor_key_cipher [0xc0] { family := .AES, mode := .ENC_MODE_CBC } 16
          (List.replicate 16 0x07) (List.replicate 16 0x00) 16 false
        = run_cipher xor_key_cipher { family := .AES, mode := .ENC_MODE_CBC }
            (xor_last (List.replicate 16 0x07) K1)
            (symkey { family := .AES, mode := .ENC_MODE_CBC } [0xc0])
            (.createFromData .AES (List.replicate 16 0x00)) ∧
      cmac_low xor_key_cipher [0xc0] { family := .AES, mode := .ENC_MODE_CBC } 16
          (List.replicate 16 0x07) (List.replicate 16 0x00) 16 true
        = run_cipher xor_key_cipher { family := .AES, mode := .ENC_MODE_CBC }
            (xor_last (List.replicate 16 0x07) K2)
            (symkey { family := .AES, mode := .ENC_MODE_CBC } [0xc0])
            (.createFromData .AES (List.replicate 16 0x00)) ∧
      xor_last (List.replicate 16 0x07) K1 ≠ xor_last (List.replicate 16 0x07) K2 ∧
      cmac_low xor_key_cipher [0xc0] { family := .AES, mode := .ENC_MODE_CBC } 16
          (List.replicate 16 0x07) (List.replicate 16 0x00) 16 true
        ≠ cmac_low xor_key_cipher [0xc0] { family := .AES, mode := .ENC_MODE_CBC } 16
          (List.replicate 16 0x07) (List.replicate 16 0x00) 16 false :=
  C11_forceK2Use_changes_aligned xor_key_cipher [0xc0]
    { family := .AES, mode := .ENC_MODE_CBC } 16 (List.replicate 16 0x07)
    (List.replicate 16 0x00) (List.replicate 16 0xc0) 16 (by decide) (by decide) (by decide)
    (by decide) (by decide) (by decide) (by decide) (by decide)
    (fun a b h => xor_key_cipher_inj _ a b _ _ h)

end CMACCrypto
